import Mathlib

/-!
Verification development for the FrameParsing repository
(`src/frameparsing/parsing.py`, `src/frameparsing/framecode_types.py`).

The Python source is shallowly embedded: strings are `List Char`/`String`,
Python `int` is `Int`, fallible operations return `Except`/`Option`, and the
lazy generator `parse_numbers` is modelled as the list of yielded values
together with an error flag (true when consuming the generator raises).
-/

/-! ### Characters and decimal rendering

Python renders integers with `str`/f-strings; `re`'s `\d` on the inputs of
interest is the ASCII digit class, and `\s` the ASCII whitespace class. -/

/-- ASCII digit test, the `\d` class used by the patterns in `parsing.py`. -/
def isDigitCh (c : Char) : Bool := 48 ≤ c.toNat && c.toNat ≤ 57

/-- ASCII whitespace test, the `\s` class used in `parse_numbers`. -/
def isWsCh (c : Char) : Bool :=
  c = ' ' || c = '\t' || c = '\n' || c = '\x0b' || c = '\x0c' || c = '\r'

/-- The decimal digit character for a value 0..9. -/
def digitCh : Nat → Char
  | 0 => '0' | 1 => '1' | 2 => '2' | 3 => '3' | 4 => '4'
  | 5 => '5' | 6 => '6' | 7 => '7' | 8 => '8' | 9 => '9'
  | _ => '*'

/-- Numeric value of a digit character (as in Python `int` parsing). -/
def chVal (c : Char) : Nat := c.toNat - 48

/-- Little-endian decimal digits of `n`, with explicit fuel for structural
recursion (fuel `n` suffices since `n / 10 < n` for `n > 0`). -/
def natDigitsAux : Nat → Nat → List Nat
  | 0, _ => []
  | _ + 1, 0 => []
  | fuel + 1, n + 1 => ((n + 1) % 10) :: natDigitsAux fuel ((n + 1) / 10)

/-- Little-endian decimal digits of `n` (empty for 0). -/
def natDigits (n : Nat) : List Nat := natDigitsAux n n

/-- Decimal rendering of a natural number, as Python `str` renders it. -/
def natChars (n : Nat) : List Char :=
  if n = 0 then ['0'] else ((natDigits n).map digitCh).reverse

/-- Decimal rendering of an integer, as Python `str` renders it
(minus sign for negatives, no leading zeros). -/
def intChars (i : Int) : List Char :=
  if i < 0 then '-' :: natChars i.natAbs else natChars i.natAbs

/-! ### `parse_numbers` (parsing.py lines 347-401)

Pipeline: strip whitespace not separating two numbers (two `re.sub` passes),
scan for matches of `(-?\d+)(?:-(-?\d+))?(?:x(-?\d+))?`, and expand each
match.  A zero step in a range raises `ValueError` inside Python's `range`;
the generator is modelled by the yielded values plus an error flag. -/

/-- First `re.sub` pass of `parse_numbers`: remove each whitespace character
that is not immediately followed by a digit (lookahead on the original
string). -/
def sub1 : List Char → List Char
  | [] => []
  | c :: rest =>
    if isWsCh c && !(match rest with | d :: _ => isDigitCh d | [] => false) then
      sub1 rest
    else
      c :: sub1 rest

/-- Second `re.sub` pass of `parse_numbers`: remove each whitespace character
that is not immediately preceded by a digit; `p` is the previous character of
the input string (lookbehind on the original string). -/
def sub2Aux : Option Char → List Char → List Char
  | _, [] => []
  | p, c :: rest =>
    if isWsCh c && !(match p with | some d => isDigitCh d | none => false) then
      sub2Aux (some c) rest
    else
      c :: sub2Aux (some c) rest

/-- The whitespace stripping performed at the top of `parse_numbers`. -/
def stripWs (l : List Char) : List Char := sub2Aux none (sub1 l)

/-- Numeric value of a run of digit characters (decimal, leading zeros
allowed), as Python `int` computes it. -/
def digitsVal (ds : List Char) : Nat := ds.foldl (fun a c => 10 * a + chVal c) 0

/-- Match `\d+` at the head of the input (greedy), returning the value and
the remaining characters; fails when the input does not start with a digit. -/
def parseDigits (l : List Char) : Option (Nat × List Char) :=
  if l.takeWhile isDigitCh = [] then none
  else some (digitsVal (l.takeWhile isDigitCh), l.dropWhile isDigitCh)

/-- Match `-?\d+` at the head of the input, returning the signed value and
the remaining characters.  A bare `-` without digits fails (the alternative
`\d+` cannot match at the same position either). -/
def parseSigned (l : List Char) : Option (Int × List Char) :=
  match l with
  | c :: rest =>
    if c = '-' then (parseDigits rest).map (fun p => (-(p.1 : Int), p.2))
    else (parseDigits (c :: rest)).map (fun p => ((p.1 : Int), p.2))
  | [] => none

/-- A match of the `parse_numbers` pattern: captured groups A, B, C. -/
abbrev NumTok := Int × Option Int × Option Int

/-- The optional group `(?:-(-?\d+))?`: consume `-` followed by a signed
number, or nothing. -/
def optGroupB (r : List Char) : Option Int × List Char :=
  match r with
  | c :: rx =>
    if c = '-' then
      match parseSigned rx with
      | some (bv, rr) => (some bv, rr)
      | none => (none, r)
    else (none, r)
  | [] => (none, r)

/-- The optional group `(?:x(-?\d+))?`: consume `x` followed by a signed
number, or nothing. -/
def optGroupC (r : List Char) : Option Int × List Char :=
  match r with
  | c :: rx =>
    if c = 'x' then
      match parseSigned rx with
      | some (cv, rr) => (some cv, rr)
      | none => (none, r)
    else (none, r)
  | [] => (none, r)

/-- Match the verbose pattern `(-?\d+)(?:-(-?\d+))?(?:x(-?\d+))?` at the head
of the input: group A mandatory, groups `-B` and `xC` optional (their leading
`-`/`x` is not consumed when the inner number is absent). -/
def tokenAt (l : List Char) : Option (NumTok × List Char) :=
  (parseSigned l).map (fun ar =>
    let pb := optGroupB ar.2
    let pc := optGroupC pb.2
    ((ar.1, pb.1, pc.1), pc.2))

theorem parseDigits_shrinks {l : List Char} {n : Nat} {r : List Char}
    (h : parseDigits l = some (n, r)) : r.length < l.length := by
  unfold parseDigits at h
  split at h
  · exact absurd h (by simp)
  · next he =>
    simp only [Option.some.injEq, Prod.mk.injEq] at h
    have hr : r = l.dropWhile isDigitCh := h.2.symm
    subst hr
    have h1 : (l.takeWhile isDigitCh).length + (l.dropWhile isDigitCh).length
        = l.length := by
      rw [← List.length_append, List.takeWhile_append_dropWhile]
    have h2 : 0 < (l.takeWhile isDigitCh).length :=
      List.length_pos.mpr he
    omega

theorem parseSigned_shrinks {l : List Char} {a : Int} {r : List Char}
    (h : parseSigned l = some (a, r)) : r.length < l.length := by
  match l with
  | [] => exact absurd h (by simp [parseSigned])
  | c :: rest =>
    simp only [parseSigned] at h
    split at h
    · match hp : parseDigits rest with
      | none => rw [hp] at h; simp at h
      | some (n, rr) =>
        rw [hp] at h
        simp only [Option.map_some', Option.some.injEq, Prod.mk.injEq] at h
        have := parseDigits_shrinks hp
        have hr : r = rr := h.2.symm
        subst hr
        simp only [List.length_cons]
        omega
    · match hp : parseDigits (c :: rest) with
      | none => rw [hp] at h; simp at h
      | some (n, rr) =>
        rw [hp] at h
        simp only [Option.map_some', Option.some.injEq, Prod.mk.injEq] at h
        have := parseDigits_shrinks hp
        have hr : r = rr := h.2.symm
        subst hr
        omega

theorem optGroupB_le (r : List Char) : (optGroupB r).2.length ≤ r.length := by
  match r with
  | [] => simp [optGroupB]
  | c :: rx =>
    simp only [optGroupB]
    split
    · match hq : parseSigned rx with
      | none => simp [hq]
      | some (bv, rr) =>
        simp only [hq]
        have := parseSigned_shrinks hq
        simp only [List.length_cons]
        omega
    · simp

theorem optGroupC_le (r : List Char) : (optGroupC r).2.length ≤ r.length := by
  match r with
  | [] => simp [optGroupC]
  | c :: rx =>
    simp only [optGroupC]
    split
    · match hq : parseSigned rx with
      | none => simp [hq]
      | some (cv, rr) =>
        simp only [hq]
        have := parseSigned_shrinks hq
        simp only [List.length_cons]
        omega
    · simp

theorem tokenAt_shrinks {l : List Char} {t : NumTok} {r : List Char}
    (h : tokenAt l = some (t, r)) : r.length < l.length := by
  unfold tokenAt at h
  match hp : parseSigned l with
  | none => rw [hp] at h; simp at h
  | some (a, r1) =>
    rw [hp] at h
    have ha := parseSigned_shrinks hp
    simp only [Option.map_some', Option.some.injEq, Prod.mk.injEq] at h
    have hr : r = (optGroupC (optGroupB r1).2).2 := h.2.symm
    have hb := optGroupB_le r1
    have hc := optGroupC_le (optGroupB r1).2
    subst hr
    omega

/-- The `re.finditer` scan of `parse_numbers`, with explicit fuel (structural
recursion; fuel `l.length` suffices since every step consumes at least one
character): try the pattern at each position, skipping a character when there
is no match here, and continuing after each match (matches are
non-overlapping, leftmost-first). -/
def tokenizeAux : Nat → List Char → List NumTok
  | 0, _ => []
  | fuel + 1, l =>
    match tokenAt l with
    | some (t, r) => t :: tokenizeAux fuel r
    | none =>
      match l with
      | [] => []
      | _ :: rest => tokenizeAux fuel rest

/-- The `re.finditer` scan of `parse_numbers` over the whole string. -/
def tokenize (l : List Char) : List NumTok := tokenizeAux l.length l

theorem tokenAt_nil : tokenAt [] = none := rfl

/-- The fuel of `tokenizeAux` is irrelevant as soon as it covers the length
of the input. -/
theorem tokenizeAux_fuel :
    ∀ (f1 f2 : Nat) (l : List Char), l.length ≤ f1 → l.length ≤ f2 →
      tokenizeAux f1 l = tokenizeAux f2 l := by
  intro f1
  induction f1 using Nat.strong_induction_on with
  | _ f1 ih =>
    intro f2 l h1 h2
    match f1, f2 with
    | 0, 0 => rfl
    | 0, _ + 1 =>
      have : l = [] := List.length_eq_zero.mp (Nat.le_zero.mp h1)
      subst this
      simp [tokenizeAux, tokenAt_nil]
    | _ + 1, 0 =>
      have : l = [] := List.length_eq_zero.mp (Nat.le_zero.mp h2)
      subst this
      simp [tokenizeAux, tokenAt_nil]
    | g1 + 1, g2 + 1 =>
      match ht : tokenAt l with
      | some (t, r) =>
        have hr := tokenAt_shrinks ht
        simp only [tokenizeAux, ht]
        rw [ih g1 (Nat.lt_succ_self g1) g2 r (by omega) (by omega)]
      | none =>
        cases l with
        | nil => simp [tokenizeAux, tokenAt_nil]
        | cons c rest =>
          simp only [tokenizeAux, ht]
          simp only [List.length_cons] at h1 h2
          exact ih g1 (Nat.lt_succ_self g1) g2 rest (by omega) (by omega)

/-- Unfolding equation for `tokenize` at a successful match. -/
theorem tokenize_cons_match {l : List Char} {t : NumTok} {r : List Char}
    (h : tokenAt l = some (t, r)) : tokenize l = t :: tokenize r := by
  have hr := tokenAt_shrinks h
  cases l with
  | nil => rw [tokenAt_nil] at h; exact absurd h (by simp)
  | cons c rest =>
    show tokenizeAux (rest.length + 1) (c :: rest) = t :: tokenize r
    simp only [tokenizeAux, h]
    simp only [List.length_cons] at hr
    rw [tokenizeAux_fuel rest.length r.length r (by omega) (le_refl _)]
    rfl

/-- Unfolding equation for `tokenize` at a position with no match. -/
theorem tokenize_cons_skip {c : Char} {rest : List Char}
    (h : tokenAt (c :: rest) = none) : tokenize (c :: rest) = tokenize rest := by
  show tokenizeAux (rest.length + 1) (c :: rest) = tokenize rest
  simp only [tokenizeAux, h]
  rfl

/-- Length of Python `range(a, b, c)` for nonzero step `c`
(`max(0, ceil((b-a)/c))`, computed with natural floor division). -/
def pyRangeLen (a b c : Int) : Nat :=
  if 0 < c then ((b - a).toNat + c.toNat - 1) / c.toNat
  else ((a - b).toNat + (-c).toNat - 1) / (-c).toNat

/-- Python `range(a, b, c)` as a list, for nonzero step `c`. -/
def pyRange (a b c : Int) : List Int :=
  (List.range (pyRangeLen a b c)).map (fun (i : Nat) => a + c * (i : Int))

/-- Expansion of one match of `parse_numbers` (the body of the `for` loop,
parsing.py lines 386-401): a single number, a repeat `AxC`, or a range
`A-B`/`A-BxC` with inclusive endpoint; `range` with step 0 raises. -/
def evalTok : NumTok → Except Unit (List Int)
  | (a, none, none) => .ok [a]
  | (a, none, some c) => .ok (List.replicate c.toNat a)
  | (a, some b, co) =>
    let c := co.getD 1
    let b2 := if 0 ≤ c then b + 1 else b - 1
    if c = 0 then .error () else .ok (pyRange a b2 c)

/-- Consume the generator: values yielded before the first raising match,
and whether consuming it raises. -/
def evalToks : List NumTok → List Int × Bool
  | [] => ([], false)
  | t :: ts =>
    match evalTok t with
    | .error _ => ([], true)
    | .ok vs =>
      let r := evalToks ts
      (vs ++ r.1, r.2)

/-- `parse_numbers(s)`: the values it yields paired with the flag telling
whether consuming the generator to the end raises `ValueError`. -/
def parseNumbersRes (s : String) : List Int × Bool :=
  evalToks (tokenize (stripWs s.data))

/-- The list of integers yielded by `parse_numbers(s)`. -/
def parseNumbers (s : String) : List Int := (parseNumbersRes s).1

/-! ### `format_numbers` (parsing.py lines 404-515)

Greedy run-length encoding with a three-number window
`seq_start, seq_end, next_number` plus `step` and `seq_length`.  The
transcription below mirrors the `while True` loop; each recursive call
consumes from the remaining iterator `rest`.  Note that in the two places
where the code flushes `f"{seq_start}x{seq_length}"` after sliding the
window, `seq_length` still holds its old value (it is only reset to 2 after
a successful fetch of `next_number`). -/

/-- The inner helper `build_string` of `format_numbers`. -/
def buildStr (start e step : Int) (len : Nat) : List Char :=
  if step = 0 then intChars start ++ 'x' :: natChars len
  else if step = 1 then intChars start ++ '-' :: intChars e
  else intChars start ++ '-' :: intChars e ++ 'x' :: intChars step

/-- The `while True` loop of `format_numbers`, returning the list of
emitted `output` pieces.  State: `start`/`e`/`n` are `seq_start`/`seq_end`/
`next_number`, `step` and `len` are `step` and `seq_length`, `rest` is what
remains of the iterator. -/
def loopS (start e n step : Int) (len : Nat) (rest : List Int) :
    List (List Char) :=
  if n = start + step * len then
    -- next number extends the arithmetic sequence
    match rest with
    | [] => [buildStr start n step (len + 1)]
    | m :: rest2 => loopS start n m step (len + 1) rest2
  else if 3 ≤ len || step = 0 then
    -- emit the finished run, restart a fresh window at n
    buildStr start e step len ::
    (match rest with
     | [] => [intChars n]
     | e2 :: rest2 =>
       match rest2 with
       | [] =>
         if e2 - n = 0 then [intChars n ++ 'x' :: natChars len]
         else [intChars n, intChars e2]
       | m :: rest3 => loopS n e2 m (e2 - n) 2 rest3)
  else
    -- emit seq_start alone and slide the window one step
    intChars start ::
    (match rest with
     | [] =>
       if n - e = 0 then [intChars e ++ 'x' :: natChars len]
       else [intChars e, intChars n]
     | m :: rest2 => loopS e n m (n - e) 2 rest2)

/-- Join the emitted pieces with `", "` (the final `", ".join(output)`). -/
def joinComma (parts : List (List Char)) : List Char :=
  List.intercalate [',', ' '] parts

/-- `format_numbers(numbers)`: `ValueError` on empty input (modelled as
`.error ()`), otherwise the compact string representation. -/
def formatNumbers : List Int → Except Unit String
  | [] => .error ()
  | [a] => .ok (String.mk (intChars a))
  | [a, b] =>
    .ok (String.mk (if a = b then intChars a ++ ['x', '2']
                    else intChars a ++ ',' :: ' ' :: intChars b))
  | a :: b :: c :: rest =>
    .ok (String.mk (joinComma (loopS a b c (b - a) 2 rest)))

/-! ### Decimal rendering round-trip -/

theorem natDigitsAux_val :
    ∀ fuel n, n ≤ fuel →
      (natDigitsAux fuel n).foldr (fun d r => d + 10 * r) 0 = n := by
  intro fuel
  induction fuel with
  | zero => intro n h; interval_cases n; rfl
  | succ f ih =>
    intro n h
    match n with
    | 0 => rfl
    | m + 1 =>
      have hd : (m + 1) / 10 < m + 1 := Nat.div_lt_self (Nat.succ_pos m) (by omega)
      have hle : (m + 1) / 10 ≤ f := by omega
      simp only [natDigitsAux, List.foldr_cons]
      rw [ih _ hle]
      omega

theorem natDigits_val (n : Nat) :
    (natDigits n).foldr (fun d r => d + 10 * r) 0 = n :=
  natDigitsAux_val n n (le_refl n)

theorem natDigitsAux_lt :
    ∀ fuel n d, d ∈ natDigitsAux fuel n → d < 10 := by
  intro fuel
  induction fuel with
  | zero => intro n d h; simp [natDigitsAux] at h
  | succ f ih =>
    intro n d h
    match n with
    | 0 => simp [natDigitsAux] at h
    | m + 1 =>
      simp only [natDigitsAux, List.mem_cons] at h
      rcases h with h | h
      · subst h; exact Nat.mod_lt _ (by omega)
      · exact ih _ _ h

theorem chVal_digitCh {d : Nat} (h : d < 10) : chVal (digitCh d) = d := by
  interval_cases d <;> rfl

theorem isDigitCh_digitCh {d : Nat} (h : d < 10) : isDigitCh (digitCh d) = true := by
  interval_cases d <;> rfl

theorem isWsCh_digitCh {d : Nat} (h : d < 10) : isWsCh (digitCh d) = false := by
  interval_cases d <;> rfl

theorem natChars_all_digits (n : Nat) : ∀ c ∈ natChars n, isDigitCh c = true := by
  intro c hc
  unfold natChars at hc
  split at hc
  · simp at hc; subst hc; rfl
  · simp only [List.mem_reverse, List.mem_map] at hc
    obtain ⟨d, hd, rfl⟩ := hc
    exact isDigitCh_digitCh (natDigitsAux_lt _ _ _ hd)

theorem natChars_ne_nil (n : Nat) : natChars n ≠ [] := by
  unfold natChars
  split
  · simp
  · next h =>
    match n with
    | m + 1 =>
      show (List.map digitCh (natDigitsAux (m+1) (m+1))).reverse ≠ []
      simp [natDigitsAux]

theorem foldr_digit_val :
    ∀ L : List Nat, (∀ d ∈ L, d < 10) →
      L.foldr (fun d acc => 10 * acc + chVal (digitCh d)) 0
        = L.foldr (fun d r => d + 10 * r) 0 := by
  intro L
  induction L with
  | nil => intro _; rfl
  | cons d L ih =>
    intro h
    simp only [List.foldr_cons]
    rw [ih (fun x hx => h x (List.mem_cons_of_mem _ hx)),
        chVal_digitCh (h d (List.mem_cons_self d L))]
    omega

theorem digitsVal_natChars (n : Nat) : digitsVal (natChars n) = n := by
  unfold natChars
  split
  · next h => subst h; rfl
  · unfold digitsVal
    rw [List.foldl_reverse, List.foldr_map]
    rw [foldr_digit_val (natDigits n) (fun d hd => natDigitsAux_lt n n d hd)]
    exact natDigits_val n

/-! ### Parsing a rendered number -/

/-- The next character, if any, is not a digit (used to show the greedy
`\d+` stops exactly at a fragment boundary). -/
def noDigitHead : List Char → Prop
  | [] => True
  | c :: _ => isDigitCh c = false

theorem takeWhile_all_append {l1 l2 : List Char}
    (h1 : ∀ c ∈ l1, isDigitCh c = true) (h2 : noDigitHead l2) :
    (l1 ++ l2).takeWhile isDigitCh = l1 ∧ (l1 ++ l2).dropWhile isDigitCh = l2 := by
  induction l1 with
  | nil =>
    match l2 with
    | [] => exact ⟨rfl, rfl⟩
    | c :: t =>
      have hc : isDigitCh c = false := h2
      constructor
      · simp [List.takeWhile_cons, hc]
      · simp [List.dropWhile_cons, hc]
  | cons c l1 ih =>
    have hc : isDigitCh c = true := h1 c (List.mem_cons_self _ _)
    have ih2 := ih (fun x hx => h1 x (List.mem_cons_of_mem _ hx))
    constructor
    · simp [List.takeWhile_cons, hc, ih2.1]
    · simp [List.dropWhile_cons, hc, ih2.2]

theorem parseDigits_render {n : Nat} {t : List Char} (h2 : noDigitHead t) :
    parseDigits (natChars n ++ t) = some (n, t) := by
  obtain ⟨htake, hdrop⟩ := takeWhile_all_append (natChars_all_digits n) h2
  unfold parseDigits
  rw [htake, hdrop]
  have hne : natChars n ≠ [] := natChars_ne_nil n
  simp only [hne, if_false]
  rw [digitsVal_natChars]

theorem isDigitCh_dash : isDigitCh '-' = false := rfl

theorem parseSigned_render {i : Int} {t : List Char} (h2 : noDigitHead t) :
    parseSigned (intChars i ++ t) = some (i, t) := by
  unfold intChars
  by_cases hi : i < 0
  · simp only [hi, if_true, List.cons_append]
    show parseSigned ('-' :: (natChars i.natAbs ++ t)) = some (i, t)
    simp only [parseSigned]
    rw [if_pos trivial, parseDigits_render h2]
    simp only [Option.map_some']
    have : -(i.natAbs : Int) = i := by omega
    rw [this]
  · simp only [hi, if_false]
    have hhead : ∃ c rest, natChars i.natAbs = c :: rest ∧ isDigitCh c = true := by
      match hn : natChars i.natAbs with
      | [] => exact absurd hn (natChars_ne_nil _)
      | c :: rest =>
        refine ⟨c, rest, rfl, ?_⟩
        exact natChars_all_digits _ c (by rw [hn]; exact List.mem_cons_self _ _)
    obtain ⟨c, rest, heq, hc⟩ := hhead
    rw [heq]
    have hcne : ¬ (c = '-') := by
      intro hcc
      rw [hcc] at hc
      exact absurd hc (by rw [isDigitCh_dash]; simp)
    show parseSigned (c :: (rest ++ t)) = some (i, t)
    simp only [parseSigned]
    rw [if_neg hcne]
    have : c :: (rest ++ t) = natChars i.natAbs ++ t := by rw [heq]; rfl
    rw [this, parseDigits_render h2]
    simp only [Option.map_some']
    have : (i.natAbs : Int) = i := by omega
    rw [this]

/-! ### Whitespace-free strings pass through the stripping unchanged -/

/-- No character of `l` is whitespace. -/
def NoWs (l : List Char) : Prop := ∀ c ∈ l, isWsCh c = false

theorem noWs_nil : NoWs [] := by intro c hc; simp at hc

theorem noWs_cons {c : Char} {l : List Char} (hc : isWsCh c = false)
    (hl : NoWs l) : NoWs (c :: l) := by
  intro x hx
  rcases List.mem_cons.mp hx with h | h
  · subst h; exact hc
  · exact hl x h

theorem noWs_append {l1 l2 : List Char} (h1 : NoWs l1) (h2 : NoWs l2) :
    NoWs (l1 ++ l2) := by
  intro x hx
  rcases List.mem_append.mp hx with h | h
  · exact h1 x h
  · exact h2 x h

theorem isWsCh_of_digit {c : Char} (h : isDigitCh c = true) : isWsCh c = false := by
  unfold isDigitCh at h
  simp only [Bool.and_eq_true, decide_eq_true_eq] at h
  unfold isWsCh
  have h1 : ¬ (c = ' ') := fun hc => by subst hc; exact absurd h (by decide)
  have h2 : ¬ (c = '\t') := fun hc => by subst hc; exact absurd h (by decide)
  have h3 : ¬ (c = '\n') := fun hc => by subst hc; exact absurd h (by decide)
  have h4 : ¬ (c = '\x0b') := fun hc => by subst hc; exact absurd h (by decide)
  have h5 : ¬ (c = '\x0c') := fun hc => by subst hc; exact absurd h (by decide)
  have h6 : ¬ (c = '\r') := fun hc => by subst hc; exact absurd h (by decide)
  simp [h1, h2, h3, h4, h5, h6]

theorem noWs_natChars (n : Nat) : NoWs (natChars n) :=
  fun c hc => isWsCh_of_digit (natChars_all_digits n c hc)

theorem noWs_intChars (i : Int) : NoWs (intChars i) := by
  unfold intChars
  split
  · exact noWs_cons rfl (noWs_natChars _)
  · exact noWs_natChars _

theorem sub1_id {l : List Char} (h : NoWs l) : sub1 l = l := by
  induction l with
  | nil => rfl
  | cons c rest ih =>
    have hc : isWsCh c = false := h c (List.mem_cons_self _ _)
    have ih2 := ih (fun x hx => h x (List.mem_cons_of_mem _ hx))
    simp [sub1, hc, ih2]

theorem sub2Aux_id {l : List Char} (p : Option Char) (h : NoWs l) :
    sub2Aux p l = l := by
  induction l generalizing p with
  | nil => rfl
  | cons c rest ih =>
    have hc : isWsCh c = false := h c (List.mem_cons_self _ _)
    have ih2 := ih (some c) (fun x hx => h x (List.mem_cons_of_mem _ hx))
    simp [sub2Aux, hc, ih2]

theorem stripWs_id {l : List Char} (h : NoWs l) : stripWs l = l := by
  unfold stripWs
  rw [sub1_id h, sub2Aux_id _ h]

/-! ### Tokenizing rendered fragments -/

/-- What may follow a rendered fragment: end of string or a comma. -/
def FragBoundary (t : List Char) : Prop := t = [] ∨ ∃ r2, t = ',' :: r2

theorem fragBoundary_noDigitHead {t : List Char} (h : FragBoundary t) :
    noDigitHead t := by
  rcases h with h | ⟨r2, h⟩ <;> subst h
  · trivial
  · rfl

theorem noDigitHead_dash (t : List Char) : noDigitHead ('-' :: t) := rfl

theorem noDigitHead_x (t : List Char) : noDigitHead ('x' :: t) := rfl

theorem optGroupB_at_dash (b : Int) (t : List Char) (h : noDigitHead t) :
    optGroupB ('-' :: (intChars b ++ t)) = (some b, t) := by
  simp only [optGroupB]
  rw [if_pos trivial, parseSigned_render h]

theorem optGroupB_nil : optGroupB [] = (none, []) := rfl

theorem optGroupB_skip {c : Char} (rx : List Char) (h : ¬ (c = '-')) :
    optGroupB (c :: rx) = (none, c :: rx) := by
  simp only [optGroupB]
  rw [if_neg h]

theorem optGroupC_at_x (cv : Int) (t : List Char) (h : noDigitHead t) :
    optGroupC ('x' :: (intChars cv ++ t)) = (some cv, t) := by
  simp only [optGroupC]
  rw [if_pos trivial, parseSigned_render h]

theorem optGroupC_nil : optGroupC [] = (none, []) := rfl

theorem optGroupC_skip {c : Char} (rx : List Char) (h : ¬ (c = 'x')) :
    optGroupC (c :: rx) = (none, c :: rx) := by
  simp only [optGroupC]
  rw [if_neg h]

theorem fragBoundary_optGroupB {t : List Char} (h : FragBoundary t) :
    optGroupB t = (none, t) := by
  rcases h with h | ⟨r2, h⟩ <;> subst h
  · exact optGroupB_nil
  · exact optGroupB_skip r2 (by decide)

theorem fragBoundary_optGroupC {t : List Char} (h : FragBoundary t) :
    optGroupC t = (none, t) := by
  rcases h with h | ⟨r2, h⟩ <;> subst h
  · exact optGroupC_nil
  · exact optGroupC_skip r2 (by decide)

/-- A single number fragment tokenizes as `(A, none, none)`. -/
theorem tokenAt_single (a : Int) {t : List Char} (h : FragBoundary t) :
    tokenAt (intChars a ++ t) = some ((a, none, none), t) := by
  unfold tokenAt
  rw [@parseSigned_render a t (fragBoundary_noDigitHead h)]
  simp only [Option.map_some', fragBoundary_optGroupB h, fragBoundary_optGroupC h]

/-- A repeat fragment `AxC` tokenizes as `(A, none, some C)`. -/
theorem tokenAt_repeatTok (a c : Int) {t : List Char} (h : FragBoundary t) :
    tokenAt (intChars a ++ 'x' :: intChars c ++ t) =
      some ((a, none, some c), t) := by
  unfold tokenAt
  simp only [List.cons_append, List.append_assoc]
  rw [@parseSigned_render a ('x' :: (intChars c ++ t)) (noDigitHead_x _)]
  simp only [Option.map_some', optGroupB_skip _ (by decide : ¬ ('x' = '-')),
    optGroupC_at_x c t (fragBoundary_noDigitHead h)]

/-- A plain range fragment `A-B` tokenizes as `(A, some B, none)`. -/
theorem tokenAt_rangeTok (a b : Int) {t : List Char} (h : FragBoundary t) :
    tokenAt (intChars a ++ '-' :: intChars b ++ t) =
      some ((a, some b, none), t) := by
  unfold tokenAt
  simp only [List.cons_append, List.append_assoc]
  rw [@parseSigned_render a ('-' :: (intChars b ++ t)) (noDigitHead_dash _)]
  simp only [Option.map_some', optGroupB_at_dash b t (fragBoundary_noDigitHead h),
    fragBoundary_optGroupC h]

/-- A stepped range fragment `A-BxC` tokenizes as `(A, some B, some C)`. -/
theorem tokenAt_rangeStepTok (a b c : Int) {t : List Char} (h : FragBoundary t) :
    tokenAt (intChars a ++ '-' :: intChars b ++ 'x' :: intChars c ++ t) =
      some ((a, some b, some c), t) := by
  unfold tokenAt
  simp only [List.cons_append, List.append_assoc]
  rw [@parseSigned_render a ('-' :: (intChars b ++ ('x' :: (intChars c ++ t))))
    (noDigitHead_dash _)]
  simp only [Option.map_some', optGroupB_at_dash b _ (noDigitHead_x _),
    optGroupC_at_x c t (fragBoundary_noDigitHead h)]

/-! ### Python `range` arithmetic -/

theorem pyRangeLen_exact_pos (a c : Int) (k : Nat) (hc : 0 < c) :
    pyRangeLen a (a + c * k + 1) c = k + 1 := by
  unfold pyRangeLen
  rw [if_pos hc]
  have h1 : a + c * k + 1 - a = c * k + 1 := by ring
  rw [h1]
  obtain ⟨m, hm⟩ : ∃ m : Nat, (m : Int) = c := ⟨c.toNat, Int.toNat_of_nonneg hc.le⟩
  subst hm
  have hm0 : 0 < m := by exact_mod_cast hc
  have h2 : ((m : Int) * k + 1).toNat = m * k + 1 := by
    rw [show (m : Int) * (k : Nat) + 1 = ((m * k + 1 : Nat) : Int) from by push_cast; ring]
    exact Int.toNat_natCast _
  rw [h2, Int.toNat_natCast]
  have h3 : m * k + 1 + m - 1 = m * (k + 1) := by rw [Nat.mul_succ]; omega
  rw [h3, Nat.mul_div_cancel_left _ hm0]

theorem pyRangeLen_exact_neg (a c : Int) (k : Nat) (hc : c < 0) :
    pyRangeLen a (a + c * k - 1) c = k + 1 := by
  unfold pyRangeLen
  rw [if_neg (by omega)]
  have h1 : a - (a + c * k - 1) = (-c) * k + 1 := by ring
  rw [h1]
  obtain ⟨m, hm⟩ : ∃ m : Nat, (m : Int) = -c := ⟨(-c).toNat, Int.toNat_of_nonneg (by omega)⟩
  rw [← hm]
  have hm0 : 0 < m := by omega
  have h2 : ((m : Int) * k + 1).toNat = m * k + 1 := by
    rw [show (m : Int) * (k : Nat) + 1 = ((m * k + 1 : Nat) : Int) from by push_cast; ring]
    exact Int.toNat_natCast _
  rw [h2, Int.toNat_natCast]
  have h3 : m * k + 1 + m - 1 = m * (k + 1) := by rw [Nat.mul_succ]; omega
  rw [h3, Nat.mul_div_cancel_left _ hm0]

/-- Evaluating a range token with explicit nonzero step. -/
theorem evalTok_range_tok (a c : Int) (k : Nat) (hc : c ≠ 0) :
    evalTok (a, some (a + c * k), some c)
      = .ok ((List.range (k + 1)).map (fun (i : Nat) => a + c * (i : Int))) := by
  show (let cc := (some c).getD 1
        let b2 := if 0 ≤ cc then (a + c * k) + 1 else (a + c * k) - 1
        if cc = 0 then (.error () : Except Unit (List Int)) else .ok (pyRange a b2 cc))
      = .ok ((List.range (k + 1)).map (fun (i : Nat) => a + c * (i : Int)))
  simp only [Option.getD_some]
  rw [if_neg hc]
  by_cases h0 : 0 ≤ c
  · rw [if_pos h0]
    unfold pyRange
    rw [pyRangeLen_exact_pos a c k (lt_of_le_of_ne h0 (Ne.symm hc))]
  · rw [if_neg h0]
    unfold pyRange
    rw [pyRangeLen_exact_neg a c k (by omega)]

/-- Evaluating a range token with omitted step (defaults to 1). -/
theorem evalTok_range_one (a : Int) (k : Nat) :
    evalTok (a, some (a + k), none)
      = .ok ((List.range (k + 1)).map (fun (i : Nat) => a + (i : Int))) := by
  show (let cc := (none : Option Int).getD 1
        let b2 := if 0 ≤ cc then (a + k) + 1 else (a + k) - 1
        if cc = 0 then (.error () : Except Unit (List Int)) else .ok (pyRange a b2 cc))
      = .ok ((List.range (k + 1)).map (fun (i : Nat) => a + (i : Int)))
  simp only [Option.getD_none]
  rw [if_neg (by omega), if_pos (by omega)]
  unfold pyRange
  have := pyRangeLen_exact_pos a 1 k (by omega)
  rw [show a + (k : Int) + 1 = a + 1 * k + 1 from by ring, this]
  simp

/-! ### Error behaviour of the token evaluation -/

/-- Values yielded by one token when it does not raise (empty if it does). -/
def okVals (t : NumTok) : List Int :=
  match evalTok t with
  | .ok vs => vs
  | .error _ => []

/-- The tokens on which `parse_numbers` raises: a range (B present) with an
explicit step of zero. -/
def zeroStepTok (t : NumTok) : Prop := t.2.1.isSome = true ∧ t.2.2 = some 0

instance (t : NumTok) : Decidable (zeroStepTok t) := by
  unfold zeroStepTok; infer_instance

theorem evalTok_error_iff (t : NumTok) : evalTok t = .error () ↔ zeroStepTok t := by
  obtain ⟨a, ob, oc⟩ := t
  match ob, oc with
  | none, none => simp [evalTok, zeroStepTok]
  | none, some c => simp [evalTok, zeroStepTok]
  | some b, none =>
    show (let cc := (none : Option Int).getD 1
          let b2 := if 0 ≤ cc then b + 1 else b - 1
          if cc = 0 then (.error () : Except Unit (List Int)) else .ok (pyRange a b2 cc))
        = .error () ↔ _
    simp [zeroStepTok]
  | some b, some c =>
    show (let cc := (some c).getD 1
          let b2 := if 0 ≤ cc then b + 1 else b - 1
          if cc = 0 then (.error () : Except Unit (List Int)) else .ok (pyRange a b2 cc))
        = .error () ↔ _
    simp only [Option.getD_some]
    by_cases hc : c = 0 <;> simp [hc, zeroStepTok]

theorem evalToks_cons_ok {t : NumTok} (ts : List NumTok) (h : ¬ zeroStepTok t) :
    evalToks (t :: ts) = (okVals t ++ (evalToks ts).1, (evalToks ts).2) := by
  have he : evalTok t ≠ .error () := fun hx => h ((evalTok_error_iff t).mp hx)
  match hv : evalTok t with
  | .error e => cases e; exact absurd hv he
  | .ok vs => simp only [evalToks, okVals, hv]

theorem evalToks_cons_error {t : NumTok} (ts : List NumTok) (h : zeroStepTok t) :
    evalToks (t :: ts) = ([], true) := by
  have he : evalTok t = .error () := (evalTok_error_iff t).mpr h
  simp only [evalToks, he]

theorem evalToks_append_bad (pre : List NumTok) (bad : NumTok) (post : List NumTok)
    (hpre : ∀ t ∈ pre, ¬ zeroStepTok t) (hbad : zeroStepTok bad) :
    evalToks (pre ++ bad :: post) = ((pre.map okVals).flatten, true) := by
  induction pre with
  | nil =>
    simp only [List.nil_append, List.map_nil, List.flatten]
    exact evalToks_cons_error post hbad
  | cons t pre ih =>
    have ht : ¬ zeroStepTok t := hpre t (List.mem_cons_self _ _)
    have ih2 := ih (fun x hx => hpre x (List.mem_cons_of_mem _ hx))
    rw [List.cons_append, evalToks_cons_ok _ ht, ih2]
    simp

/-! ### Claims C2, C6 and C9 -/

/-- C2, amended: for integers `a`, `b`, `c` with `b = a + c*k` for some
`k ≥ 0` and `c ≠ 0`, `parse_numbers` applied to the string `"A-BxC"`
yields exactly `a, a+c, …, b` inclusive.  (The original claim also allowed
`c = 0`, where `b = a` and Python's `range` raises `ValueError` instead of
yielding `a`.) -/
theorem parseNumbers_range_step (a b c : Int) (k : Nat)
    (hb : b = a + c * k) (hc : c ≠ 0) :
    parseNumbers (String.mk (intChars a ++ '-' :: intChars b ++ 'x' :: intChars c))
      = (List.range (k + 1)).map (fun (i : Nat) => a + c * (i : Int)) := by
  unfold parseNumbers parseNumbersRes
  rw [show (String.mk (intChars a ++ '-' :: intChars b ++ 'x' :: intChars c)).data
      = intChars a ++ '-' :: intChars b ++ 'x' :: intChars c from rfl]
  have hnoWs : NoWs (intChars a ++ '-' :: intChars b ++ 'x' :: intChars c) :=
    noWs_append
      (noWs_append (noWs_intChars a)
        (@noWs_cons '-' (intChars b) (by decide) (noWs_intChars b)))
      (@noWs_cons 'x' (intChars c) (by decide) (noWs_intChars c))
  rw [stripWs_id hnoWs]
  have htok := tokenAt_rangeStepTok a b c (Or.inl rfl)
  simp only [List.append_nil] at htok
  rw [tokenize_cons_match htok]
  rw [show tokenize [] = [] from rfl]
  subst hb
  rw [evalToks_cons_ok [] (by simp [zeroStepTok, hc]),
      show okVals (a, some (a + c * k), some c)
        = (List.range (k + 1)).map (fun (i : Nat) => a + c * (i : Int)) from by
          unfold okVals; rw [evalTok_range_tok a c k hc]]
  simp [evalToks]

/-- C2 witness: `parseNumbers "1-5x2" = [1, 3, 5]` via the theorem at
`a = 1`, `b = 5`, `c = 2`, `k = 2`. -/
theorem parseNumbers_range_step_witness : parseNumbers "1-5x2" = [1, 3, 5] := by
  have h := parseNumbers_range_step 1 5 2 2 (by norm_num) (by norm_num)
  rw [show String.mk (intChars 1 ++ '-' :: intChars 5 ++ 'x' :: intChars 2)
      = "1-5x2" from by decide] at h
  rw [h]
  decide

/-- C2 counterexample: with `a = b = c = 0` (and `k = 0`) the claim as stated
predicts the output `[0]`, but the code yields nothing and raises
(`range` with step 0). -/
theorem parseNumbers_range_step_cex :
    parseNumbers "0-0x0" = [] ∧ (parseNumbersRes "0-0x0").2 = true ∧
      parseNumbers "0-0x0" ≠ [(0 : Int)] := by decide

/-- C6, amended: for any integers `A` and `C` with `C ≥ 0`, parsing the
repeat syntax `"AxC"` yields `A` exactly `C` times.  (For negative `C` the
original claim is impossible: Python's `range(C)` is empty, so the code
yields `A` zero times.) -/
theorem parseNumbers_repeat (a c : Int) (hc : 0 ≤ c) :
    parseNumbers (String.mk (intChars a ++ 'x' :: intChars c))
      = List.replicate c.toNat a := by
  unfold parseNumbers parseNumbersRes
  rw [show (String.mk (intChars a ++ 'x' :: intChars c)).data
      = intChars a ++ 'x' :: intChars c from rfl]
  have hnoWs : NoWs (intChars a ++ 'x' :: intChars c) :=
    noWs_append (noWs_intChars a)
      (@noWs_cons 'x' (intChars c) (by decide) (noWs_intChars c))
  rw [stripWs_id hnoWs]
  have htok := tokenAt_repeatTok a c (Or.inl rfl)
  simp only [List.append_nil] at htok
  rw [tokenize_cons_match htok]
  rw [show tokenize [] = [] from rfl]
  rw [evalToks_cons_ok [] (by simp [zeroStepTok])]
  rw [show okVals (a, none, some c) = List.replicate c.toNat a from rfl]
  simp [evalToks]

/-- C6 witness: `parseNumbers "5x3" = [5, 5, 5]` via the theorem at `a = 5`,
`c = 3`. -/
theorem parseNumbers_repeat_witness : parseNumbers "5x3" = [5, 5, 5] := by
  have h := parseNumbers_repeat 5 3 (by norm_num)
  rw [show String.mk (intChars 5 ++ 'x' :: intChars 3) = "5x3" from by decide] at h
  rw [h]
  decide

/-- C6 counterexample: at `A = 5`, `C = -1` the code yields the empty list,
which is not `A` repeated `C = -1` times (no list has length `-1`). -/
theorem parseNumbers_repeat_cex :
    parseNumbers "5x-1" = [] ∧ (((parseNumbers "5x-1").length : Int) = -1 → False) := by
  constructor
  · decide
  · intro h
    rw [show parseNumbers "5x-1" = [] from by decide] at h
    simp at h

/-- C9: if the token stream of the input contains a range fragment `A-Bx0`
(both endpoints present, explicit step 0), then consuming the generator
raises when that fragment is reached: the error flag is set and only the
values of the fragments strictly before the first such fragment are
yielded — the offending fragment is neither skipped nor expanded. -/
theorem parseNumbers_zero_step_raises (s : String) (pre post : List NumTok)
    (a b : Int)
    (h : tokenize (stripWs s.data) = pre ++ (a, some b, some 0) :: post)
    (hpre : ∀ t ∈ pre, ¬ zeroStepTok t) :
    parseNumbersRes s = ((pre.map okVals).flatten, true) := by
  unfold parseNumbersRes
  rw [h]
  exact evalToks_append_bad pre _ post hpre ⟨by simp, rfl⟩

/-- C9 witness: on `"3, 1-2x0, 9"` the generator yields `3`, then raises at
the `1-2x0` fragment; the trailing `9` is never produced. -/
theorem parseNumbers_zero_step_raises_witness :
    parseNumbersRes "3, 1-2x0, 9" = ([3], true) := by
  have h := parseNumbers_zero_step_raises "3, 1-2x0, 9"
    [(3, none, none)] [(9, none, none)] 1 2 (by decide) (by decide)
  rw [h]
  decide

/-! ### Framecode conventions (framecode_types.py)

Each convention has a detection pattern searched on the path stem, a width
rule on the captured group, and an optional generator.  The four patterns
are implemented directly as deterministic matchers (each pattern's
backtracking is vacuous because its character classes are disjoint):

- `format_code`: `[{]:0(\d+)d*[}]`
- `modulo`: `%0(\d+)d`
- `numbersign`: `(#+)(?!.*#)` (the last contiguous run of `#`)
- `digits`: `(-?\d+)(?!.*\d)` (the last contiguous run of digits, with an
  optional directly preceding minus sign)
-/

/-- The four framecode conventions, in detection priority order. -/
inductive FcType
  | format_code
  | modulo
  | numbersign
  | digits
deriving DecidableEq, Repr

/-- Result of matching a convention pattern at one position:
(matched text, captured group 1, rest after the match). -/
abbrev AtMatch := List Char × List Char × List Char

/-- Match `[{]:0(\d+)d*[}]` at the head of the input. -/
def fcFormatAt (l : List Char) : Option AtMatch :=
  match l with
  | c1 :: c2 :: c3 :: r =>
    if c1 = '{' ∧ c2 = ':' ∧ c3 = '0' then
      let ds := r.takeWhile isDigitCh
      if ds = [] then none
      else
        let r2 := r.dropWhile isDigitCh
        let dd := r2.takeWhile (fun c => c = 'd')
        match r2.dropWhile (fun c => c = 'd') with
        | c4 :: r3 =>
          if c4 = '}' then
            some ('{' :: ':' :: '0' :: (ds ++ dd ++ ['}']), ds, r3)
          else none
        | [] => none
    else none
  | _ => none

/-- Match `%0(\d+)d` at the head of the input. -/
def fcModuloAt (l : List Char) : Option AtMatch :=
  match l with
  | c1 :: c2 :: r =>
    if c1 = '%' ∧ c2 = '0' then
      let ds := r.takeWhile isDigitCh
      if ds = [] then none
      else
        match r.dropWhile isDigitCh with
        | c3 :: r3 =>
          if c3 = 'd' then some ('%' :: '0' :: (ds ++ ['d']), ds, r3) else none
        | [] => none
    else none
  | _ => none

/-- The characters visible to `.` in a lookahead: `.` does not match a
newline, so `.*` scans only up to (not including) the next `'\n'`. -/
def beforeNl (l : List Char) : List Char := l.takeWhile (fun c => ¬ c = '\n')

/-- Match `(#+)(?!.*#)` at the head of the input: a nonempty run of `#`
followed by no further `#` before the next newline (`.` does not match
`'\n'`; shorter runs leave an adjacent `#` in the rest, so the lookahead
fails for them too). -/
def fcHashAt (l : List Char) : Option AtMatch :=
  let hs := l.takeWhile (fun c => c = '#')
  if hs = [] then none
  else
    let r := l.dropWhile (fun c => c = '#')
    if (beforeNl r).any (fun c => c = '#') then none else some (hs, hs, r)

/-- Match `(-?\d+)(?!.*\d)` at the head of the input: an optional minus,
a nonempty digit run, and no further digit before the next newline (`.`
does not match `'\n'`; shorter runs leave an adjacent digit, so the
lookahead fails for them too). -/
def fcDigitsAt (l : List Char) : Option AtMatch :=
  match l with
  | c :: r =>
    if c = '-' then
      let ds := r.takeWhile isDigitCh
      if ds = [] then none
      else
        let r2 := r.dropWhile isDigitCh
        if (beforeNl r2).any isDigitCh then none
        else some ('-' :: ds, '-' :: ds, r2)
    else
      let ds := (c :: r).takeWhile isDigitCh
      if ds = [] then none
      else
        let r2 := (c :: r).dropWhile isDigitCh
        if (beforeNl r2).any isDigitCh then none else some (ds, ds, r2)
  | [] => none

/-- The matcher of each convention. -/
def matcherOf : FcType → (List Char → Option AtMatch)
  | .format_code => fcFormatAt
  | .modulo => fcModuloAt
  | .numbersign => fcHashAt
  | .digits => fcDigitsAt

/-- A successful `re.search`: text before the match, the matched text, the
captured group, and the text after the match. -/
structure ReMatch where
  pre : List Char
  matched : List Char
  cap : List Char
  post : List Char
deriving DecidableEq, Repr

/-- `re.search`: try the pattern at each position from the left, returning
the first (leftmost) match. -/
def fcSearch (mAt : List Char → Option AtMatch) : List Char → Option ReMatch
  | [] =>
    match mAt [] with
    | some (mt, cap, post) => some ⟨[], mt, cap, post⟩
    | none => none
  | c :: rest =>
    match mAt (c :: rest) with
    | some (mt, cap, post) => some ⟨[], mt, cap, post⟩
    | none => (fcSearch mAt rest).map (fun q => ⟨c :: q.pre, q.matched, q.cap, q.post⟩)

/-- Iterating over the conventions in priority order and accepting the
first whose pattern matches the stem (parsing.py lines 42-51). -/
def detect (stem : List Char) : Option (FcType × ReMatch) :=
  match fcSearch fcFormatAt stem with
  | some m => some (.format_code, m)
  | none =>
    match fcSearch fcModuloAt stem with
    | some m => some (.modulo, m)
    | none =>
      match fcSearch fcHashAt stem with
      | some m => some (.numbersign, m)
      | none =>
        match fcSearch fcDigitsAt stem with
        | some m => some (.digits, m)
        | none => none

/-- Width rule of each convention applied to the captured group
(framecode_types.py: `int` for format/modulo, `len` for the others). -/
def fcWidth : FcType → List Char → Nat
  | .format_code, cap => digitsVal cap
  | .modulo, cap => digitsVal cap
  | .numbersign, cap => cap.length
  | .digits, cap => cap.length

/-! ### Path model (Python `pathlib.PurePosixPath` on strings)

Only the pieces the source uses: `stem`, `suffix`, `str(path.parent)` and
`str(parent / name)`.  Components are the `/`-separated pieces with empty
and `.` pieces dropped (`..` is an ordinary component, as in pathlib). -/

/-- The normalized path components. -/
def pathComps (l : List Char) : List (List Char) :=
  (l.splitOn '/').filter (fun p => decide (p ≠ [] ∧ p ≠ ['.']))

/-- Whether the path is absolute (starts with the separator). -/
def pathIsAbs (l : List Char) : Bool :=
  match l with
  | c :: _ => c = '/'
  | [] => false

/-- `path.name`: the final component, or empty. -/
def pathName (l : List Char) : List Char := (pathComps l).getLast?.getD []

/-- `str(path.parent)`. -/
def parentStr (l : List Char) : List Char :=
  let ps := (pathComps l).dropLast
  if pathIsAbs l then '/' :: List.intercalate ['/'] ps
  else if ps = [] then ['.']
  else List.intercalate ['/'] ps

/-- Index after which the suffix starts: CPython's
`i = name.rfind('.'); 0 < i < len(name) - 1`. -/
def nameDotIdx (n : List Char) : Option Nat :=
  (n.reverse.findIdx? (fun c => c = '.')).map (fun j => n.length - 1 - j)

/-- `path.suffix` (includes the dot, or empty). -/
def pathSuffix (l : List Char) : List Char :=
  let n := pathName l
  match nameDotIdx n with
  | some i => if 0 < i ∧ i < n.length - 1 then n.drop i else []
  | none => []

/-- `path.stem` (the name with its suffix removed). -/
def pathStem (l : List Char) : List Char :=
  let n := pathName l
  match nameDotIdx n with
  | some i => if 0 < i ∧ i < n.length - 1 then n.take i else n
  | none => n

/-- `str(parent / name)` as the source builds it
(`self.path.parent / (new_stem + self.path.suffix)`). -/
def joinParent (par nm : List Char) : List Char :=
  if par = ['.'] then nm
  else if par = ['/'] then '/' :: nm
  else par ++ '/' :: nm

/-! ### Soundness of the matchers: a match decomposes its input -/

/-- A matcher is sound when a match at a position reproduces its input as
`matched ++ rest` with nonempty matched text. -/
def MatcherSound (mAt : List Char → Option AtMatch) : Prop :=
  ∀ l mt cap post, mAt l = some (mt, cap, post) → l = mt ++ post ∧ mt ≠ []

theorem fcFormatAt_sound : MatcherSound fcFormatAt := by
  intro l mt cap post h
  match l with
  | [] => exact absurd h (by simp [fcFormatAt])
  | [c1] => exact absurd h (by simp [fcFormatAt])
  | [c1, c2] => exact absurd h (by simp [fcFormatAt])
  | c1 :: c2 :: c3 :: r =>
    simp only [fcFormatAt] at h
    split at h
    · next hc =>
      obtain ⟨hc1, hc2, hc3⟩ := hc
      subst hc1; subst hc2; subst hc3
      split at h
      · exact absurd h (by simp)
      · next hds =>
        split at h
        · next c4 r3 hr2 =>
          split at h
          · next hc4 =>
            subst hc4
            simp only [Option.some.injEq, Prod.mk.injEq] at h
            obtain ⟨hmt, hcap, hpost⟩ := h
            subst hmt; subst hpost
            constructor
            · have hr : r = r.takeWhile isDigitCh ++ r.dropWhile isDigitCh :=
                (List.takeWhile_append_dropWhile _ _).symm
              have hr2' : r.dropWhile isDigitCh
                  = (r.dropWhile isDigitCh).takeWhile (fun c => c = 'd')
                    ++ (r.dropWhile isDigitCh).dropWhile (fun c => c = 'd') :=
                (List.takeWhile_append_dropWhile _ _).symm
              rw [hr2] at hr2'
              conv_lhs => rw [hr, hr2']
              simp
            · simp
          · exact absurd h (by simp)
        · exact absurd h (by simp)
    · exact absurd h (by simp)

theorem fcModuloAt_sound : MatcherSound fcModuloAt := by
  intro l mt cap post h
  match l with
  | [] => exact absurd h (by simp [fcModuloAt])
  | [c1] => exact absurd h (by simp [fcModuloAt])
  | c1 :: c2 :: r =>
    simp only [fcModuloAt] at h
    split at h
    · next hc =>
      obtain ⟨hc1, hc2⟩ := hc
      subst hc1; subst hc2
      split at h
      · exact absurd h (by simp)
      · next hds =>
        split at h
        · next c3 r3 hr2 =>
          split at h
          · next hc3 =>
            subst hc3
            simp only [Option.some.injEq, Prod.mk.injEq] at h
            obtain ⟨hmt, hcap, hpost⟩ := h
            subst hmt; subst hpost
            constructor
            · have hr : r = r.takeWhile isDigitCh ++ r.dropWhile isDigitCh :=
                (List.takeWhile_append_dropWhile _ _).symm
              rw [hr2] at hr
              conv_lhs => rw [hr]
              simp
            · simp
          · exact absurd h (by simp)
        · exact absurd h (by simp)
    · exact absurd h (by simp)

theorem fcHashAt_sound : MatcherSound fcHashAt := by
  intro l mt cap post h
  simp only [fcHashAt] at h
  split at h
  · exact absurd h (by simp)
  · next hne =>
    split at h
    · exact absurd h (by simp)
    · simp only [Option.some.injEq, Prod.mk.injEq] at h
      obtain ⟨hmt, hcap, hpost⟩ := h
      subst hmt; subst hpost
      exact ⟨(List.takeWhile_append_dropWhile _ _).symm, hne⟩

theorem fcDigitsAt_sound : MatcherSound fcDigitsAt := by
  intro l mt cap post h
  match l with
  | [] => exact absurd h (by simp [fcDigitsAt])
  | c :: r =>
    simp only [fcDigitsAt] at h
    split at h
    · next hc =>
      subst hc
      split at h
      · exact absurd h (by simp)
      · next hds =>
        split at h
        · exact absurd h (by simp)
        · simp only [Option.some.injEq, Prod.mk.injEq] at h
          obtain ⟨hmt, hcap, hpost⟩ := h
          subst hmt; subst hpost
          constructor
          · have hr : r = r.takeWhile isDigitCh ++ r.dropWhile isDigitCh :=
              (List.takeWhile_append_dropWhile _ _).symm
            conv_lhs => rw [hr]
            simp
          · simp
    · split at h
      · exact absurd h (by simp)
      · next hds =>
        split at h
        · exact absurd h (by simp)
        · simp only [Option.some.injEq, Prod.mk.injEq] at h
          obtain ⟨hmt, hcap, hpost⟩ := h
          subst hmt; subst hpost
          exact ⟨(List.takeWhile_append_dropWhile _ _).symm, hds⟩

theorem matcherOf_sound (ty : FcType) : MatcherSound (matcherOf ty) := by
  cases ty
  · exact fcFormatAt_sound
  · exact fcModuloAt_sound
  · exact fcHashAt_sound
  · exact fcDigitsAt_sound

/-- A successful search decomposes the input around the matched text. -/
theorem fcSearch_sound {mAt : List Char → Option AtMatch} (hs : MatcherSound mAt) :
    ∀ {l : List Char} {m : ReMatch}, fcSearch mAt l = some m →
      l = m.pre ++ m.matched ++ m.post ∧ m.matched ≠ [] := by
  intro l
  induction l with
  | nil =>
    intro m h
    simp only [fcSearch] at h
    split at h
    · next mt cap post hm =>
      obtain ⟨hd, hne⟩ := hs [] mt cap post hm
      cases h
      exact ⟨by simp [← hd], hne⟩
    · exact absurd h (by simp)
  | cons c rest ih =>
    intro m h
    simp only [fcSearch] at h
    split at h
    · next mt cap post hm =>
      obtain ⟨hd, hne⟩ := hs _ mt cap post hm
      cases h
      exact ⟨by simpa using hd, hne⟩
    · next hm =>
      match hq : fcSearch mAt rest with
      | none => rw [hq] at h; exact absurd h (by simp)
      | some q =>
        rw [hq] at h
        simp only [Option.map_some', Option.some.injEq] at h
        obtain ⟨hd, hne⟩ := ih hq
        subst h
        exact ⟨by simpa using hd, hne⟩

/-- Every match returned by a search comes from a matcher call. -/
theorem fcSearch_from {mAt : List Char → Option AtMatch} :
    ∀ {l : List Char} {m : ReMatch}, fcSearch mAt l = some m →
      ∃ lp, mAt lp = some (m.matched, m.cap, m.post) := by
  intro l
  induction l with
  | nil =>
    intro m h
    simp only [fcSearch] at h
    split at h
    · next mt cap post hm => cases h; exact ⟨[], hm⟩
    · exact absurd h (by simp)
  | cons c rest ih =>
    intro m h
    simp only [fcSearch] at h
    split at h
    · next mt cap post hm => cases h; exact ⟨c :: rest, hm⟩
    · next hm =>
      match hq : fcSearch mAt rest with
      | none => rw [hq] at h; exact absurd h (by simp)
      | some q =>
        rw [hq] at h
        simp only [Option.map_some', Option.some.injEq] at h
        obtain ⟨lp, hl⟩ := ih hq
        subst h
        exact ⟨lp, hl⟩

/-! ### `re.sub` (replace all non-overlapping matches) and `re.split` ends -/

/-- `re.sub(pattern, repl, l)` with a literal replacement string, with
explicit fuel (each step consumes at least one character for sound
matchers): replace every non-overlapping match, scanning from the left. -/
def subAllAux (mAt : List Char → Option AtMatch) :
    Nat → List Char → List Char → List Char
  | 0, _, l => l
  | fuel + 1, repl, l =>
    match mAt l with
    | some (_, _, post) => repl ++ subAllAux mAt fuel repl post
    | none =>
      match l with
      | [] => []
      | c :: rest => c :: subAllAux mAt fuel repl rest

/-- `re.sub(pattern, repl, l)` with a literal replacement string.
(Backslash escapes in the replacement template are not modelled; the
replacements used by the source are generated framecodes without
backslashes.) -/
def subAll (mAt : List Char → Option AtMatch) (repl l : List Char) : List Char :=
  subAllAux mAt l.length repl l

/-- The final piece of `re.split(pattern, stem)` (`stem_parts[-1]`): the text
after the last match, with explicit fuel. -/
def splitLastAux (mAt : List Char → Option AtMatch) : Nat → List Char → List Char
  | 0, l => l
  | fuel + 1, l =>
    match fcSearch mAt l with
    | none => l
    | some m => splitLastAux mAt fuel m.post

/-- The text of `stem` after the last match of the pattern (`stem_parts[-1]`
of `re.split`); the whole of `stem` when there is no match. -/
def splitLast (mAt : List Char → Option AtMatch) (l : List Char) : List Char :=
  splitLastAux mAt l.length l

/-- The first piece of `re.split(pattern, stem)` (`stem_parts[0]`): the text
before the first match; the whole of `stem` when there is no match. -/
def splitHead (mAt : List Char → Option AtMatch) (l : List Char) : List Char :=
  ((fcSearch mAt l).map ReMatch.pre).getD l

/-! ### `re.escape` and the width-policy regex fragments -/

/-- The characters Python 3.7+ `re.escape` escapes. -/
def reSpecials : List Char :=
  ['(', ')', '[', ']', '\x7b', '\x7d', '?', '*', '+', '-', '|', '^', '$',
   '\\', '.', '&', '~', '#', ' ', '\t', '\n', '\r', '\x0b', '\x0c']

/-- `re.escape`: prefix every special character with a backslash. -/
def reEscape (l : List Char) : List Char :=
  (l.map (fun c => if c ∈ reSpecials then ['\\', c] else [c])).flatten

/-- The `any` width-policy fragment `-?\d+`. -/
def fragAny : List Char := ['-', '?', '\\', 'd', '+']

/-- The `exact` width-policy fragment: `(?:\d{W}|-\d{W-1})` with the two
counts rendered from `width` and `width - 1` (the latter as a Python `int`,
so `-1` when the width is 0). -/
def exactFrag (w : Nat) : List Char :=
  ['(', '?', ':', '\\', 'd', '\x7b'] ++ intChars w
    ++ ['\x7d', '|', '-', '\\', 'd', '\x7b'] ++ intChars ((w : Int) - 1)
    ++ ['\x7d', ')']

/-- The `min` width-policy fragment `(?:\d{W,}|-\d{W-1,})`. -/
def minFrag (w : Nat) : List Char :=
  ['(', '?', ':', '\\', 'd', '\x7b'] ++ intChars w
    ++ [',', '\x7d', '|', '-', '\\', 'd', '\x7b'] ++ intChars ((w : Int) - 1)
    ++ [',', '\x7d', ')']

/-- The `max` width-policy fragment `(?:\d{1,W}|-\d{1,W-1})`. -/
def maxFrag (w : Nat) : List Char :=
  ['(', '?', ':', '\\', 'd', '\x7b', '1', ','] ++ intChars w
    ++ ['\x7d', '|', '-', '\\', 'd', '\x7b', '1', ','] ++ intChars ((w : Int) - 1)
    ++ ['\x7d', ')']

/-- The `width_options` lookup of `create_regex`. -/
def widthCode (policy : String) (w : Nat) : Option (List Char) :=
  if policy = "any" then some fragAny
  else if policy = "exact" then some (exactFrag w)
  else if policy = "min" then some (minFrag w)
  else if policy = "max" then some (maxFrag w)
  else none

/-! ### The framecode operations (parsing.py) -/

/-- The error taxonomy of the spec (all raised as `ValueError`/`TypeError`
in the source, distinguished by raise site). -/
inductive FpErr
  | noFramecode
  | invalidWidth
  | unknownType
  | unsupportedGeneration
  | invalidPolicy
deriving DecidableEq, Repr

instance {e a : Type} [DecidableEq e] [DecidableEq a] :
    DecidableEq (Except e a) := fun x y =>
  match x, y with
  | .ok v, .ok w =>
    if h : v = w then isTrue (by rw [h]) else isFalse (by intro hx; cases hx; exact h rfl)
  | .error v, .error w =>
    if h : v = w then isTrue (by rw [h]) else isFalse (by intro hx; cases hx; exact h rfl)
  | .ok _, .error _ => isFalse (by intro hx; cases hx)
  | .error _, .ok _ => isFalse (by intro hx; cases hx)

/-- `has_framecode`. -/
def hasFramecode (s : String) : Bool := (detect (pathStem s.data)).isSome

/-- `get_framecode_width` (None when no framecode is found). -/
def getFramecodeWidth (s : String) : Option Nat :=
  (detect (pathStem s.data)).map (fun tm => fcWidth tm.1 tm.2.cap)

/-- The `generate_framecode` functions of the registry
(framecode_types.py; `digits` has none). -/
def genCode : FcType → Nat → Option (List Char)
  | .format_code, n => some ('\x7b' :: ':' :: '0' :: (natChars n ++ ['d', '\x7d']))
  | .modulo, n => some ('%' :: '0' :: (natChars n ++ ['d']))
  | .numbersign, n => some (List.replicate n '#')
  | .digits, _ => none

/-- Lookup of a convention by its registry key. -/
def parseFcTypeName (ty : String) : Option FcType :=
  if ty = "format_code" then some .format_code
  else if ty = "modulo" then some .modulo
  else if ty = "numbersign" then some .numbersign
  else if ty = "digits" then some .digits
  else none

/-- `generate_framecode(framecode_type, width)` (parsing.py lines 160-191):
validates the width is positive, the type known, and the type has a
generator. -/
def generateFramecode (ty : String) (w : Int) : Except FpErr String :=
  if w < 1 then .error .invalidWidth
  else
    match parseFcTypeName ty with
    | none => .error .unknownType
    | some t =>
      match genCode t w.toNat with
      | none => .error .unsupportedGeneration
      | some code => .ok (String.mk code)

/-- `_Parser.replace_framecode` body: substitute the pattern in the stem and
reassemble `parent / (new_stem + suffix)`. -/
def replaceCore (s : String) (ty : FcType) (repl : List Char) : List Char :=
  joinParent (parentStr s.data)
    (subAll (matcherOf ty) repl (pathStem s.data) ++ pathSuffix s.data)

/-- The free function `replace_framecode`: returns the input unchanged when
no framecode is found. -/
def replaceFramecode (s repl : String) : String :=
  match detect (pathStem s.data) with
  | none => s
  | some (ty, _) => String.mk (replaceCore s ty repl.data)

/-- `_Parser.create_regex(width)` on a string whose stem contains a
framecode (parsing.py lines 113-157). -/
def createRegexCore (s : String) (policy : String) : Except FpErr String :=
  match detect (pathStem s.data) with
  | none => .error .noFramecode
  | some (ty, m) =>
    match widthCode policy (fcWidth ty m.cap) with
    | none => .error .invalidPolicy
    | some code =>
      let stem := pathStem s.data
      let newName := reEscape (splitHead (matcherOf ty) stem) ++ code
        ++ reEscape (splitLast (matcherOf ty) stem)
        ++ reEscape (pathSuffix s.data)
      let par := parentStr s.data
      .ok (String.mk (if par = ['.'] then newName
                      else reEscape par ++ reEscape ['/'] ++ newName))

/-- `_Parser.translate(to_type)`: `regex` delegates to `create_regex()`
(default policy `any`), otherwise generate a framecode of this width in the
target convention and substitute it. -/
def parserTranslate (s : String) (toTy : String) : Except FpErr String :=
  match detect (pathStem s.data) with
  | none => .error .noFramecode
  | some (ty, m) =>
    if toTy = "regex" then createRegexCore s "any"
    else
      match generateFramecode toTy ((fcWidth ty m.cap : Int)) with
      | .error e => .error e
      | .ok code => .ok (String.mk (replaceCore s ty code.data))

/-- The free function `translate_framecode`: returns the input unchanged
when no framecode is found, otherwise translates (propagating generation
errors). -/
def translateFramecode (s toTy : String) : Except FpErr String :=
  match detect (pathStem s.data) with
  | none => .ok s
  | some _ => parserTranslate s toTy

/-! ### `Seqname` (parsing.py lines 518-580) -/

/-- `Seqname(string)`: the canonical value is the `format_code` translation
of the input; construction fails when no framecode is found or the
translation fails (e.g. width 0). -/
def seqnameNew (s : String) : Except FpErr String := parserTranslate s "format_code"

/-- Whether the middle piece matches `-?\d+` entirely. -/
def signedDigits (m : List Char) : Bool :=
  match m with
  | c :: rest =>
    if c = '-' then decide (rest ≠ []) && rest.all isDigitCh
    else (c :: rest).all isDigitCh
  | [] => false

/-- `re.fullmatch(self.regex, cand)` for the `any`-policy regex synthesized
from `s`: the pattern is escaped literals around `-?\d+`, so a full match is
exactly a decomposition `cand = pre ++ mid ++ post` with the literal `pre`
and `post` of fixed length and `mid` a signed digit run. -/
def fullmatchAnyRegex (s cand : String) : Bool :=
  match detect (pathStem s.data) with
  | none => false
  | some (ty, _) =>
    let stem := pathStem s.data
    let par := parentStr s.data
    let pre := (if par = ['.'] then [] else par ++ ['/']) ++ splitHead (matcherOf ty) stem
    let post := splitLast (matcherOf ty) stem ++ pathSuffix s.data
    let cd := cand.data
    if cd.length < pre.length + post.length + 1 then false
    else
      decide (cd.take pre.length = pre)
      && decide (cd.drop (cd.length - post.length) = post)
      && signedDigits ((cd.drop pre.length).take (cd.length - pre.length - post.length))

/-- `Seqname.matches(cand)` with the default `strict=True`, for a `Seqname`
constructed from `s`: try the full regex match first, then accept when the
candidate's own canonical form equals this one's. -/
def seqnameMatches (s cand : String) : Bool :=
  if fullmatchAnyRegex s cand then true
  else
    match seqnameNew cand, seqnameNew s with
    | .ok other, .ok self => decide (self = other)
    | _, _ => false

/-! ### Supporting lemmas for the framecode claims -/

theorem fcSearch_post_lt {mAt : List Char → Option AtMatch} (hs : MatcherSound mAt)
    {l : List Char} {m : ReMatch} (h : fcSearch mAt l = some m) :
    m.post.length < l.length := by
  obtain ⟨hd, hne⟩ := fcSearch_sound hs h
  have : l.length = m.pre.length + m.matched.length + m.post.length := by
    rw [hd]; simp; omega
  have : 0 < m.matched.length := List.length_pos.mpr hne
  omega

theorem splitLastAux_fuel {mAt : List Char → Option AtMatch} (hs : MatcherSound mAt) :
    ∀ (f1 f2 : Nat) (l : List Char), l.length ≤ f1 → l.length ≤ f2 →
      splitLastAux mAt f1 l = splitLastAux mAt f2 l := by
  intro f1
  induction f1 using Nat.strong_induction_on with
  | _ f1 ih =>
    intro f2 l h1 h2
    match f1, f2 with
    | 0, 0 => rfl
    | 0, g2 + 1 =>
      have hl : l = [] := List.length_eq_zero.mp (Nat.le_zero.mp h1)
      subst hl
      simp only [splitLastAux]
      match hq : fcSearch mAt [] with
      | none => rfl
      | some m => exact absurd (fcSearch_post_lt hs hq) (by simp)
    | g1 + 1, 0 =>
      have hl : l = [] := List.length_eq_zero.mp (Nat.le_zero.mp h2)
      subst hl
      simp only [splitLastAux]
      match hq : fcSearch mAt [] with
      | none => rfl
      | some m => exact absurd (fcSearch_post_lt hs hq) (by simp)
    | g1 + 1, g2 + 1 =>
      simp only [splitLastAux]
      match hq : fcSearch mAt l with
      | none => rfl
      | some m =>
        have hlt := fcSearch_post_lt hs hq
        exact ih g1 (Nat.lt_succ_self g1) g2 m.post (by omega) (by omega)

theorem splitLast_step {mAt : List Char → Option AtMatch} (hs : MatcherSound mAt)
    {l : List Char} {m : ReMatch} (h : fcSearch mAt l = some m) :
    splitLast mAt l = splitLast mAt m.post := by
  have hlt := fcSearch_post_lt hs h
  unfold splitLast
  match hn : l.length with
  | 0 => omega
  | n + 1 =>
    simp only [splitLastAux, h]
    exact splitLastAux_fuel hs n m.post.length m.post (by omega) (le_refl _)

theorem splitLast_suffix_aux {mAt : List Char → Option AtMatch} (hs : MatcherSound mAt) :
    ∀ (n : Nat) (l : List Char), l.length ≤ n → ∃ mid, l = mid ++ splitLast mAt l := by
  intro n
  induction n with
  | zero =>
    intro l h
    have hl : l = [] := List.length_eq_zero.mp (Nat.le_zero.mp h)
    subst hl
    exact ⟨[], rfl⟩
  | succ n ih =>
    intro l h
    match hq : fcSearch mAt l with
    | none =>
      refine ⟨[], ?_⟩
      match l with
      | [] => rfl
      | c :: rest =>
        show c :: rest = [] ++ splitLastAux mAt (rest.length + 1) (c :: rest)
        simp only [splitLastAux, hq, List.nil_append]
    | some m =>
      have hstep := splitLast_step hs hq
      have hlt := fcSearch_post_lt hs hq
      obtain ⟨mid2, hmid⟩ := ih m.post (by omega)
      obtain ⟨hd, hne⟩ := fcSearch_sound hs hq
      refine ⟨m.pre ++ m.matched ++ mid2, ?_⟩
      rw [hstep]
      conv_lhs => rw [hd, hmid]
      simp [List.append_assoc]

theorem splitLast_suffix {mAt : List Char → Option AtMatch} (hs : MatcherSound mAt)
    (l : List Char) : ∃ mid, l = mid ++ splitLast mAt l :=
  splitLast_suffix_aux hs l.length l (le_refl _)

/-- When the pattern matches, the stem decomposes as
`splitHead ++ mid ++ splitLast`. -/
theorem split_decomp {mAt : List Char → Option AtMatch} (hs : MatcherSound mAt)
    {l : List Char} {m : ReMatch} (h : fcSearch mAt l = some m) :
    ∃ mid, l = splitHead mAt l ++ mid ++ splitLast mAt l := by
  obtain ⟨hd, hne⟩ := fcSearch_sound hs h
  have hstep := splitLast_step hs h
  obtain ⟨mid2, hmid⟩ := splitLast_suffix hs m.post
  refine ⟨m.matched ++ mid2, ?_⟩
  have hhead : splitHead mAt l = m.pre := by
    unfold splitHead
    rw [h]
    rfl
  rw [hhead, hstep]
  conv_lhs => rw [hd, hmid]
  simp [List.append_assoc]

theorem subAllAux_fuel {mAt : List Char → Option AtMatch} (hs : MatcherSound mAt) :
    ∀ (f1 f2 : Nat) (repl l : List Char), l.length ≤ f1 → l.length ≤ f2 →
      subAllAux mAt f1 repl l = subAllAux mAt f2 repl l := by
  intro f1
  induction f1 using Nat.strong_induction_on with
  | _ f1 ih =>
    intro f2 repl l h1 h2
    match f1, f2 with
    | 0, 0 => rfl
    | 0, g2 + 1 =>
      have hl : l = [] := List.length_eq_zero.mp (Nat.le_zero.mp h1)
      subst hl
      simp only [subAllAux]
      match hq : mAt [] with
      | none => rfl
      | some (mt, cap, post) =>
        obtain ⟨hd, hne⟩ := hs [] mt cap post hq
        exact absurd hd.symm (by simp [hne])
    | g1 + 1, 0 =>
      have hl : l = [] := List.length_eq_zero.mp (Nat.le_zero.mp h2)
      subst hl
      simp only [subAllAux]
      match hq : mAt [] with
      | none => rfl
      | some (mt, cap, post) =>
        obtain ⟨hd, hne⟩ := hs [] mt cap post hq
        exact absurd hd.symm (by simp [hne])
    | g1 + 1, g2 + 1 =>
      match hq : mAt l with
      | some (mt, cap, post) =>
        obtain ⟨hd, hne⟩ := hs l mt cap post hq
        have hmt : 0 < mt.length := List.length_pos.mpr hne
        have hlen : l.length = mt.length + post.length := by rw [hd]; simp
        simp only [subAllAux, hq]
        rw [ih g1 (Nat.lt_succ_self g1) g2 repl post (by omega) (by omega)]
      | none =>
        match l with
        | [] => simp [subAllAux, hq]
        | c :: rest =>
          simp only [subAllAux, hq]
          simp only [List.length_cons] at h1 h2
          rw [ih g1 (Nat.lt_succ_self g1) g2 repl rest (by omega) (by omega)]

/-- `re.sub` replaces the first match and continues scanning after it. -/
theorem subAll_search {mAt : List Char → Option AtMatch} (hs : MatcherSound mAt) :
    ∀ (n : Nat) (repl l : List Char), l.length ≤ n →
      subAll mAt repl l =
        match fcSearch mAt l with
        | none => l
        | some m => m.pre ++ repl ++ subAll mAt repl m.post := by
  intro n
  induction n with
  | zero =>
    intro repl l h
    have hl : l = [] := List.length_eq_zero.mp (Nat.le_zero.mp h)
    subst hl
    match hq : fcSearch mAt [] with
    | none => rfl
    | some m => exact absurd (fcSearch_post_lt hs hq) (by simp)
  | succ n ih =>
    intro repl l h
    match l with
    | [] =>
      match hq : fcSearch mAt [] with
      | none => rfl
      | some m => exact absurd (fcSearch_post_lt hs hq) (by simp)
    | c :: rest =>
      show subAllAux mAt (rest.length + 1) repl (c :: rest) = _
      simp only [subAllAux]
      match hq : mAt (c :: rest) with
      | some (mt, cap, post) =>
        obtain ⟨hd, hne⟩ := hs _ mt cap post hq
        have hmt : 0 < mt.length := List.length_pos.mpr hne
        have hlen : (c :: rest).length = mt.length + post.length := by rw [hd]; simp
        have hsr : fcSearch mAt (c :: rest) = some ⟨[], mt, cap, post⟩ := by
          simp only [fcSearch, hq]
        rw [hsr]
        show repl ++ subAllAux mAt rest.length repl post = [] ++ repl ++ subAll mAt repl post
        rw [subAllAux_fuel hs rest.length post.length repl post
          (by simp at hlen; omega) (le_refl _)]
        rfl
      | none =>
        have hsr : fcSearch mAt (c :: rest)
            = (fcSearch mAt rest).map (fun q => ⟨c :: q.pre, q.matched, q.cap, q.post⟩) := by
          simp only [fcSearch, hq]
        rw [hsr]
        have hrec : subAllAux mAt rest.length repl rest = subAll mAt repl rest := rfl
        simp only [List.length_cons] at h
        rw [hrec, ih repl rest (by omega)]
        match hq2 : fcSearch mAt rest with
        | none => rfl
        | some q => simp

theorem fcHashAt_cap_ne {l mt cap post} (h : fcHashAt l = some (mt, cap, post)) :
    cap ≠ [] := by
  simp only [fcHashAt] at h
  split at h
  · exact absurd h (by simp)
  · next hne =>
    split at h
    · exact absurd h (by simp)
    · simp only [Option.some.injEq, Prod.mk.injEq] at h
      obtain ⟨hmt, hcap, hpost⟩ := h
      subst hcap
      exact hne

theorem fcDigitsAt_cap_ne {l mt cap post} (h : fcDigitsAt l = some (mt, cap, post)) :
    cap ≠ [] := by
  match l with
  | [] => exact absurd h (by simp [fcDigitsAt])
  | c :: r =>
    simp only [fcDigitsAt] at h
    split at h
    · split at h
      · exact absurd h (by simp)
      · split at h
        · exact absurd h (by simp)
        · simp only [Option.some.injEq, Prod.mk.injEq] at h
          obtain ⟨hmt, hcap, hpost⟩ := h
          subst hcap
          simp
    · split at h
      · exact absurd h (by simp)
      · next hds =>
        split at h
        · exact absurd h (by simp)
        · simp only [Option.some.injEq, Prod.mk.injEq] at h
          obtain ⟨hmt, hcap, hpost⟩ := h
          subst hcap
          exact hds

/-- Detection returns a match of the detected convention's own pattern. -/
theorem detect_inv {stem : List Char} {ty : FcType} {m : ReMatch}
    (h : detect stem = some (ty, m)) :
    fcSearch (matcherOf ty) stem = some m := by
  unfold detect at h
  split at h
  · next m1 h1 => cases h; exact h1
  · next h0 =>
    split at h
    · next m1 h1 => cases h; exact h1
    · next h0b =>
      split at h
      · next m1 h1 => cases h; exact h1
      · next h0c =>
        split at h
        · next m1 h1 => cases h; exact h1
        · exact absurd h (by simp)

/-! ### Claims C3, C4, C5, C7, C8, C10 -/

/-- C3, amended: for every input string on which a framecode is detected
with the `numbersign` or `digits` convention, the computed width is at
least 1.  (For `format_code` and `modulo` the width is the integer value of
the captured digit string and can be 0, e.g. for the stem `a{:00d}` or
`a%00d`, so the original unconditional claim fails.) -/
theorem framecodeWidth_pos (s : String) (ty : FcType) (m : ReMatch)
    (h : detect (pathStem s.data) = some (ty, m))
    (hty : ty = FcType.numbersign ∨ ty = FcType.digits) :
    1 ≤ fcWidth ty m.cap := by
  have hsearch := detect_inv h
  rcases hty with hty | hty <;> subst hty
  · obtain ⟨lp, hl⟩ := fcSearch_from hsearch
    have hcap := fcHashAt_cap_ne hl
    show 1 ≤ m.cap.length
    have := List.length_pos.mpr hcap
    omega
  · obtain ⟨lp, hl⟩ := fcSearch_from hsearch
    have hcap := fcDigitsAt_cap_ne hl
    show 1 ≤ m.cap.length
    have := List.length_pos.mpr hcap
    omega

/-- C3 witness: on `"frame####.png"` the `numbersign` convention is detected
and its width is at least 1 (it is 4). -/
theorem framecodeWidth_pos_witness :
    ∃ m, detect (pathStem ("frame####.png" : String).data)
        = some (FcType.numbersign, m)
      ∧ 1 ≤ fcWidth FcType.numbersign m.cap := by
  refine ⟨⟨"frame".data, "####".data, "####".data, []⟩, by decide, ?_⟩
  exact framecodeWidth_pos "frame####.png" FcType.numbersign _ (by decide) (Or.inl rfl)

/-- C3 counterexample: `"file{:00d}.png"` has a detected framecode
(`format_code`, captured digit string `"0"`) of width 0, violating the
original claim that the width of any detected framecode is at least 1. -/
theorem framecodeWidth_zero_cex :
    hasFramecode "file\x7b:00d\x7d.png" = true
      ∧ getFramecodeWidth "file\x7b:00d\x7d.png" = some 0 := by decide

/-- C7: translating `"file####.exr"` to the `digits` convention fails with
`UnsupportedGeneration` (the raw-digits convention has no generator); no
fallback value is returned. -/
theorem translateFramecode_digits_unsupported :
    translateFramecode "file####.exr" "digits"
      = .error FpErr.unsupportedGeneration := by decide

/-- What claim C4 predicts (modelled from the claim's words, to be compared
with the code): substitute only the *first* match of the pattern within the
stem. -/
def subFirstOnly (mAt : List Char → Option AtMatch) (repl l : List Char) :
    List Char :=
  match fcSearch mAt l with
  | none => l
  | some m => m.pre ++ repl ++ m.post

/-- C4, amended: `replace_framecode` substitutes every non-overlapping
match of the detected convention's pattern within the stem (the source
calls `re.sub` with no count; for a backslash-free replacement string the
replacement text is inserted literally), then reassembles
`directory/newStem.extension`.  First-only substitution is wrong whenever
the stem holds several matches: two `modulo` codes, or even two `#` runs
separated by a newline, since the `.` of the lookahead `(?!.*#)` does not
match `'\n'`. -/
theorem replaceFramecode_all (s repl : String) (ty : FcType) (m : ReMatch)
    (h : detect (pathStem s.data) = some (ty, m))
    (hrepl : '\\' ∉ repl.data) :
    replaceFramecode s repl
      = String.mk (joinParent (parentStr s.data)
          (subAll (matcherOf ty) repl.data (pathStem s.data)
            ++ pathSuffix s.data)) := by
  unfold replaceFramecode
  simp only [h]
  rfl

/-- C4 witness: on `"frame####.png"` with the backslash-free replacement
`"X"` the detected convention is `numbersign` and the result is
`"frameX.png"`. -/
theorem replaceFramecode_all_witness :
    ('\\' ∉ ("X" : String).data)
      ∧ replaceFramecode "frame####.png" "X" = "frameX.png" := by
  refine ⟨by decide, ?_⟩
  have h := replaceFramecode_all "frame####.png" "X" FcType.numbersign
    ⟨"frame".data, "####".data, "####".data, []⟩ (by decide) (by decide)
  rw [h]
  decide

/-- C4 counterexample: on `"a%02d_b%03d.exr"` (two `modulo` matches in the
stem) with replacement `"X"` the code replaces *both* matches, returning
`"aX_bX.exr"`, whereas the claimed first-only substitution would return
`"aX_b%03d.exr"`.  Even for the `numbersign` convention first-only is
wrong: the stem `"##\n##"` has two matches because the lookahead's `.`
does not match the newline, so `re.sub` yields `"X\nX"`, not `"X\n##"`. -/
theorem replaceFramecode_first_only_cex :
    replaceFramecode "a%02d_b%03d.exr" "X" = "aX_bX.exr"
      ∧ String.mk (joinParent (parentStr ("a%02d_b%03d.exr" : String).data)
          (subFirstOnly fcModuloAt ("X" : String).data
              (pathStem ("a%02d_b%03d.exr" : String).data)
            ++ pathSuffix ("a%02d_b%03d.exr" : String).data)) = "aX_b%03d.exr"
      ∧ ("aX_bX.exr" : String) ≠ "aX_b%03d.exr"
      ∧ subAll fcHashAt ['X'] ['#', '#', '\n', '#', '#'] = ['X', '\n', 'X']
      ∧ subFirstOnly fcHashAt ['X'] ['#', '#', '\n', '#', '#']
          = ['X', '\n', '#', '#'] := by decide

/-- Evaluation of `create_regex` for a known policy. -/
theorem createRegexCore_eval (s : String) (ty : FcType) (m : ReMatch)
    (policy : String) (code : List Char)
    (h : detect (pathStem s.data) = some (ty, m))
    (hwc : widthCode policy (fcWidth ty m.cap) = some code) :
    createRegexCore s policy
      = .ok (String.mk (
          (if parentStr s.data = ['.'] then []
           else reEscape (parentStr s.data) ++ reEscape ['/'])
          ++ (reEscape (splitHead (matcherOf ty) (pathStem s.data))
              ++ code
              ++ reEscape (splitLast (matcherOf ty) (pathStem s.data))
              ++ reEscape (pathSuffix s.data)))) := by
  unfold createRegexCore
  simp only [h, hwc]
  by_cases hp : parentStr s.data = ['.']
  · simp [hp]
  · simp [hp, List.append_assoc]

/-- C8: with policy `exact` and a detected framecode of width `w`, the
result is the escaped stem prefix (before the first pattern match), the
fragment `(?:\d{w}|-\d{w-1})`, the escaped stem suffix (after the last
match) and the escaped extension — prefixed by the escaped parent directory
and escaped separator exactly when the input has a parent directory; and the
prefix/suffix really decompose the stem around the matched region. -/
theorem createRegex_exact_struct (s : String) (ty : FcType) (m : ReMatch)
    (h : detect (pathStem s.data) = some (ty, m)) :
    createRegexCore s "exact"
      = .ok (String.mk (
          (if parentStr s.data = ['.'] then []
           else reEscape (parentStr s.data) ++ reEscape ['/'])
          ++ (reEscape (splitHead (matcherOf ty) (pathStem s.data))
              ++ exactFrag (fcWidth ty m.cap)
              ++ reEscape (splitLast (matcherOf ty) (pathStem s.data))
              ++ reEscape (pathSuffix s.data))))
    ∧ ∃ mid, pathStem s.data
        = splitHead (matcherOf ty) (pathStem s.data) ++ mid
          ++ splitLast (matcherOf ty) (pathStem s.data) := by
  constructor
  · exact createRegexCore_eval s ty m "exact" _ h (by unfold widthCode; rfl)
  · exact split_decomp (matcherOf_sound ty) (detect_inv h)

/-- C8 witness: for `"dir/file0042.png"` (digits convention, width 4) the
`exact` regex is `dir/file(?:\d{4}|-\d{3})\.png`. -/
theorem createRegex_exact_struct_witness :
    createRegexCore "dir/file0042.png" "exact"
      = .ok "dir/file(?:\\d\x7b4\x7d|-\\d\x7b3\x7d)\\.png" := by
  have h := createRegex_exact_struct "dir/file0042.png" FcType.digits
    ⟨"file".data, "0042".data, "0042".data, []⟩ (by decide)
  rw [h.1]
  decide

/-- `sub` occurs contiguously inside `l`. -/
def InfixIn (sub l : List Char) : Prop := ∃ p q, l = p ++ sub ++ q

theorem infixIn_appL {sub l : List Char} (x : List Char) (h : InfixIn sub l) :
    InfixIn sub (x ++ l) := by
  obtain ⟨p, q, hl⟩ := h
  exact ⟨x ++ p, q, by rw [hl]; simp [List.append_assoc]⟩

theorem infixIn_appR {sub l : List Char} (y : List Char) (h : InfixIn sub l) :
    InfixIn sub (l ++ y) := by
  obtain ⟨p, q, hl⟩ := h
  exact ⟨p, q ++ y, by rw [hl]; simp [List.append_assoc]⟩

/-- C10: for a detected framecode of width exactly 1, the `max`-policy regex
contains the substring `-\d{1,0}` (a quantifier whose minimum exceeds its
maximum) as its negative-number alternative, and the `exact`-policy regex
contains `-\d{0}` (matching a bare minus sign with no digits). -/
theorem createRegex_width_one_quirk (s : String) (ty : FcType) (m : ReMatch)
    (h : detect (pathStem s.data) = some (ty, m))
    (hw : fcWidth ty m.cap = 1) :
    (∃ r1, createRegexCore s "max" = .ok r1
        ∧ InfixIn ['-', '\\', 'd', '\x7b', '1', ',', '0', '\x7d'] r1.data)
    ∧ (∃ r2, createRegexCore s "exact" = .ok r2
        ∧ InfixIn ['-', '\\', 'd', '\x7b', '0', '\x7d'] r2.data) := by
  have hmax := createRegexCore_eval s ty m "max" (maxFrag (fcWidth ty m.cap)) h
    (by unfold widthCode; rfl)
  have hexact := createRegexCore_eval s ty m "exact" (exactFrag (fcWidth ty m.cap)) h
    (by unfold widthCode; rfl)
  rw [hw] at hmax hexact
  constructor
  · refine ⟨_, hmax, ?_⟩
    show InfixIn _ ((if parentStr s.data = ['.'] then []
        else reEscape (parentStr s.data) ++ reEscape ['/'])
      ++ (reEscape (splitHead (matcherOf ty) (pathStem s.data))
          ++ maxFrag 1
          ++ reEscape (splitLast (matcherOf ty) (pathStem s.data))
          ++ reEscape (pathSuffix s.data)))
    apply infixIn_appL
    apply infixIn_appR
    apply infixIn_appR
    apply infixIn_appL
    exact ⟨['(', '?', ':', '\\', 'd', '\x7b', '1', ',', '1', '\x7d', '|'], [')'],
      by decide⟩
  · refine ⟨_, hexact, ?_⟩
    show InfixIn _ ((if parentStr s.data = ['.'] then []
        else reEscape (parentStr s.data) ++ reEscape ['/'])
      ++ (reEscape (splitHead (matcherOf ty) (pathStem s.data))
          ++ exactFrag 1
          ++ reEscape (splitLast (matcherOf ty) (pathStem s.data))
          ++ reEscape (pathSuffix s.data)))
    apply infixIn_appL
    apply infixIn_appR
    apply infixIn_appR
    apply infixIn_appL
    exact ⟨['(', '?', ':', '\\', 'd', '\x7b', '1', '\x7d', '|'], [')'],
      by decide⟩

/-- C10 witness: the theorem applied to `"a1.png"` (digits convention,
width 1). -/
theorem createRegex_width_one_quirk_witness :
    (∃ r1, createRegexCore "a1.png" "max" = .ok r1
        ∧ InfixIn ['-', '\\', 'd', '\x7b', '1', ',', '0', '\x7d'] r1.data)
    ∧ (∃ r2, createRegexCore "a1.png" "exact" = .ok r2
        ∧ InfixIn ['-', '\\', 'd', '\x7b', '0', '\x7d'] r2.data) :=
  createRegex_width_one_quirk "a1.png" FcType.digits ⟨['a'], ['1'], ['1'], []⟩
    (by decide) (by decide)

/-- C5, amended: for every filename whose detected framecode has width at
least 1, constructing `Seqname` succeeds and `matches` on the filename
itself returns true.  (Width-0 framecodes such as `"a%00d.png"` make the
constructor raise `ValueError` from `generate_framecode`, so the original
unconditional claim fails.) -/
theorem seqname_matches_self (s : String) (ty : FcType) (m : ReMatch)
    (h : detect (pathStem s.data) = some (ty, m))
    (hw : 1 ≤ fcWidth ty m.cap) :
    ∃ canon, seqnameNew s = .ok canon ∧ seqnameMatches s s = true := by
  have hcode : generateFramecode "format_code" ((fcWidth ty m.cap : Int))
      = .ok (String.mk ('\x7b' :: ':' :: '0'
          :: (natChars ((fcWidth ty m.cap : Int)).toNat ++ ['d', '\x7d']))) := by
    unfold generateFramecode
    rw [if_neg (by omega)]
    rfl
  have hnew : seqnameNew s = .ok (String.mk (replaceCore s ty
      (String.mk ('\x7b' :: ':' :: '0'
        :: (natChars ((fcWidth ty m.cap : Int)).toNat ++ ['d', '\x7d']))).data)) := by
    unfold seqnameNew parserTranslate
    simp only [h, hcode]
    rw [if_neg (by decide : ¬ (("format_code" : String) = "regex"))]
  refine ⟨_, hnew, ?_⟩
  unfold seqnameMatches
  by_cases hf : fullmatchAnyRegex s s = true
  · rw [if_pos hf]
  · rw [if_neg hf, hnew]
    simp

/-- C5 witness: `Seqname("frame####.png").matches("frame####.png")` is true
(and the construction succeeds, with canonical form `"frame{:04d}.png"`). -/
theorem seqname_matches_self_witness :
    seqnameMatches "frame####.png" "frame####.png" = true := by
  obtain ⟨canon, hnew, hm⟩ := seqname_matches_self "frame####.png"
    FcType.numbersign ⟨"frame".data, "####".data, "####".data, []⟩
    (by decide) (by decide)
  exact hm

/-- C5 counterexample: `"a%00d.png"` contains a detected framecode (modulo,
width 0), but constructing `Seqname` from it fails with the invalid-width
error instead of succeeding. -/
theorem seqname_width_zero_cex :
    hasFramecode "a%00d.png" = true
      ∧ seqnameNew "a%00d.png" = .error FpErr.invalidWidth := by decide

/-! ### Fragment view of `format_numbers` (for claim C1)

The emitted pieces of `format_numbers` are abstracted as fragments: a bare
number, a repeat `AxK`, or an arithmetic run `A-B`/`A-BxStep` of a given
length.  `floop` mirrors `loopS` exactly but emits fragments; the
`loopS_eq_floop` agreement theorem connects the two. -/

/-- One emitted piece of `format_numbers`. -/
inductive Frag
  | single (a : Int)
  | rep (a : Int) (k : Nat)
  | rng (a st : Int) (len : Nat)
deriving DecidableEq, Repr

/-- Rendering of fragments: exactly the strings `build_string` and the
flush paths produce (for a run, the endpoint is `a + st*(len-1)`). -/
def renderFrag : Frag → List Char
  | .single a => intChars a
  | .rep a k => intChars a ++ 'x' :: natChars k
  | .rng a st l =>
    if st = 1 then intChars a ++ '-' :: intChars (a + st * ((l : Int) - 1))
    else intChars a ++ '-' :: intChars (a + st * ((l : Int) - 1)) ++ 'x' :: intChars st

/-- The integers a fragment stands for (what parsing its rendering yields). -/
def fragVals : Frag → List Int
  | .single a => [a]
  | .rep a k => List.replicate k a
  | .rng a st l => (List.range l).map (fun (i : Nat) => a + st * (i : Int))

/-- Concatenated values of a fragment list. -/
def fragStream (F : List Frag) : List Int := (F.map fragVals).flatten

/-- `build_string` at the fragment level. -/
def mkBuild (start st : Int) (len : Nat) : Frag :=
  if st = 0 then .rep start len else .rng start st len

/-- `loopS` at the fragment level (same branching, emits fragments). -/
def floop (start e n step : Int) (len : Nat) (rest : List Int) : List Frag :=
  if n = start + step * len then
    match rest with
    | [] => [mkBuild start step (len + 1)]
    | m :: rest2 => floop start n m step (len + 1) rest2
  else if 3 ≤ len || step = 0 then
    mkBuild start step len ::
    (match rest with
     | [] => [.single n]
     | e2 :: rest2 =>
       match rest2 with
       | [] => if e2 - n = 0 then [.rep n len] else [.single n, .single e2]
       | m :: rest3 => floop n e2 m (e2 - n) 2 rest3)
  else
    .single start ::
    (match rest with
     | [] => if n - e = 0 then [.rep e len] else [.single e, .single n]
     | m :: rest2 => floop e n m (n - e) 2 rest2)

/-- The continuation of the loop after a finished run is emitted and the
window restarts at the breaking value `n` (`L` is the stale `seq_length`). -/
def contBreak (L : Nat) (n : Int) (rest : List Int) : List Frag :=
  match rest with
  | [] => [.single n]
  | e2 :: rest2 =>
    match rest2 with
    | [] => if e2 - n = 0 then [.rep n L] else [.single n, .single e2]
    | m :: rest3 => floop n e2 m (e2 - n) 2 rest3

/-- `format_numbers` at the fragment level. -/
def fmtFrags : List Int → List Frag
  | [] => []
  | [a] => [.single a]
  | [a, b] => if a = b then [.rep a 2] else [.single a, .single b]
  | a :: b :: c :: rest => floop a b c (b - a) 2 rest

theorem buildStr_eq_render (start e st : Int) (l : Nat)
    (he : e = start + st * ((l : Int) - 1)) :
    buildStr start e st l = renderFrag (mkBuild start st l) := by
  unfold buildStr mkBuild
  by_cases h0 : st = 0
  · simp [h0, renderFrag]
  · by_cases h1 : st = 1
    · simp [h0, h1, renderFrag, he]
    · simp [h0, h1, renderFrag, he]

theorem loopS_eq_floop :
    ∀ (nn : Nat) (rest : List Int) (start e n step : Int) (len : Nat),
      rest.length ≤ nn → 2 ≤ len → e = start + step * ((len : Int) - 1) →
      loopS start e n step len rest = (floop start e n step len rest).map renderFrag := by
  intro nn
  induction nn with
  | zero =>
    intro rest start e n step len hr h2 he
    have hrest : rest = [] := List.length_eq_zero.mp (Nat.le_zero.mp hr)
    subst hrest
    rw [loopS.eq_def, floop.eq_def]
    by_cases hap : n = start + step * len
    · simp only [if_pos hap, List.map_cons, List.map_nil]
      rw [buildStr_eq_render start n step (len + 1) (by push_cast; rw [hap]; ring)]
    · by_cases hb : (3 ≤ len || step = 0) = true
      · simp only [if_neg hap, hb, if_true, List.map_cons, List.map_nil]
        rw [buildStr_eq_render start e step len he]
        simp [renderFrag]
      · rw [Bool.not_eq_true] at hb
        simp only [if_neg hap, hb, Bool.false_eq_true, if_false, List.map_cons,
          List.map_nil]
        by_cases hz : n - e = 0
        · simp [hz, renderFrag]
        · simp [hz, renderFrag]
  | succ nn ih =>
    intro rest start e n step len hr h2 he
    rw [loopS.eq_def, floop.eq_def]
    by_cases hap : n = start + step * len
    · match rest with
      | [] =>
        simp only [if_pos hap, List.map_cons, List.map_nil]
        rw [buildStr_eq_render start n step (len + 1) (by push_cast; rw [hap]; ring)]
      | m :: rest2 =>
        simp only [if_pos hap]
        simp only [List.length_cons] at hr
        exact ih rest2 start n m step (len + 1) (by omega) (by omega)
          (by push_cast; rw [hap]; ring)
    · by_cases hb : (3 ≤ len || step = 0) = true
      · match rest with
        | [] =>
          simp only [if_neg hap, hb, if_true, List.map_cons, List.map_nil]
          rw [buildStr_eq_render start e step len he]
          simp [renderFrag]
        | [e2] =>
          simp only [if_neg hap, hb, if_true, List.map_cons, List.map_nil]
          rw [buildStr_eq_render start e step len he]
          by_cases hz : e2 - n = 0
          · simp [hz, renderFrag]
          · simp [hz, renderFrag]
        | e2 :: m :: rest3 =>
          simp only [if_neg hap, hb, if_true, List.map_cons]
          rw [buildStr_eq_render start e step len he]
          simp only [List.length_cons] at hr
          rw [ih rest3 n e2 m (e2 - n) 2 (by omega) (le_refl 2) (by push_cast; ring)]
      · rw [Bool.not_eq_true] at hb
        match rest with
        | [] =>
          simp only [if_neg hap, hb, Bool.false_eq_true, if_false, List.map_cons,
            List.map_nil]
          by_cases hz : n - e = 0
          · simp [hz, renderFrag]
          · simp [hz, renderFrag]
        | m :: rest2 =>
          simp only [if_neg hap, hb, Bool.false_eq_true, if_false, List.map_cons]
          simp only [List.length_cons] at hr
          rw [ih rest2 e n m (n - e) 2 (by omega) (le_refl 2) (by push_cast; ring)]
          simp [renderFrag]

/-- `format_numbers` output as rendered fragments. -/
theorem formatNumbers_frags (xs : List Int) (h : xs ≠ []) :
    formatNumbers xs = .ok (String.mk (joinComma ((fmtFrags xs).map renderFrag))) := by
  match xs with
  | [a] =>
    simp [formatNumbers, fmtFrags, joinComma, renderFrag, List.intercalate]
  | [a, b] =>
    by_cases hab : a = b
    · subst hab
      simp [formatNumbers, fmtFrags, joinComma, renderFrag, List.intercalate]
      rfl
    · simp only [formatNumbers, fmtFrags, if_neg hab, List.map_cons, List.map_nil,
        joinComma, renderFrag]
      rw [show List.intercalate [',', ' '] [intChars a, intChars b]
          = intChars a ++ [',', ' '] ++ intChars b from by
        simp [List.intercalate]]
      simp
  | a :: b :: c :: rest =>
    simp only [formatNumbers, fmtFrags]
    rw [loopS_eq_floop rest.length rest a b c (b - a) 2 (le_refl _) (le_refl 2)
      (by push_cast; ring)]

/-! ### Invariants of the fragment lists `format_numbers` emits -/

/-- Well-formed single fragment: repeats have count at least 2, runs have
nonzero step and length at least 3. -/
def wfFrag : Frag → Prop
  | .single _ => True
  | .rep _ k => 2 ≤ k
  | .rng _ st l => st ≠ 0 ∧ 3 ≤ l

/-- First value of the stream of a fragment list. -/
def jHead (G : List Frag) : Option Int := (fragStream G).head?

/-- Second value of the stream of a fragment list. -/
def jSecond (G : List Frag) : Option Int := (fragStream G).tail.head?

/-- Junction condition between an emitted fragment and the rest of the
emitted list: the machine only finished the fragment because the following
values could not extend it, and the two stale-`seq_length` flush patterns
are consistent. -/
def Jcond : Frag → List Frag → Prop
  | .single a, G =>
    (∀ v1, jHead G = some v1 → v1 ≠ a)
    ∧ (∀ v1 v2, jHead G = some v1 → jSecond G = some v2 → v2 ≠ 2 * v1 - a)
  | .rep a k, G =>
    (∀ v1, jHead G = some v1 → v1 ≠ a)
    ∧ (∀ v, G = [.rep v 2] → k = 2)
    ∧ (∀ x y, G = [.single x, .single y] → x ≠ y)
  | .rng a st l, G =>
    (∀ v1, jHead G = some v1 → v1 ≠ a + st * l)
    ∧ (∀ v, G = [.rep v 2] → False)
    ∧ (∀ x y, G = [.single x, .single y] → x ≠ y)

/-- The chained invariant of emitted fragment lists. -/
inductive Wchain : List Frag → Prop
  | nil : Wchain []
  | cons (f : Frag) (G : List Frag) :
      wfFrag f → Jcond f G → Wchain G → Wchain (f :: G)

theorem Jcond_nil (f : Frag) : Jcond f [] := by
  cases f with
  | single a =>
    refine ⟨?_, ?_⟩
    · intro v1 h; simp [jHead, fragStream] at h
    · intro v1 v2 h1 h2; simp [jHead, fragStream] at h1
  | rep a k =>
    refine ⟨?_, ?_, ?_⟩
    · intro v1 h; simp [jHead, fragStream] at h
    · intro v h; simp at h
    · intro x y h; simp at h
  | rng a st l =>
    refine ⟨?_, ?_, ?_⟩
    · intro v1 h; simp [jHead, fragStream] at h
    · intro v h; simp at h
    · intro x y h; simp at h

theorem Wchain_wf {F : List Frag} (h : Wchain F) : ∀ g ∈ F, wfFrag g := by
  induction h with
  | nil => intro g hg; simp at hg
  | cons f G hf hj hG ih =>
    intro g hg
    rcases List.mem_cons.mp hg with hg | hg
    · subst hg; exact hf
    · exact ih g hg

theorem fragStream_cons (f : Frag) (G : List Frag) :
    fragStream (f :: G) = fragVals f ++ fragStream G := by
  simp [fragStream]

theorem fragVals_ne_nil {f : Frag} (hf : wfFrag f) : fragVals f ≠ [] := by
  cases f with
  | single a => simp [fragVals]
  | rep a k =>
    have : 2 ≤ k := hf
    simp [fragVals]
    omega
  | rng a st l =>
    obtain ⟨h1, h2⟩ := hf
    intro h
    have hlen := congrArg List.length h
    simp only [fragVals, List.length_map, List.length_range, List.length_nil] at hlen
    omega

theorem fragStream_eq_nil {G : List Frag} (hG : ∀ g ∈ G, wfFrag g)
    (h : fragStream G = []) : G = [] := by
  match G with
  | [] => rfl
  | g :: G2 =>
    rw [fragStream_cons] at h
    have := fragVals_ne_nil (hG g (List.mem_cons_self _ _))
    exact absurd (List.append_eq_nil.mp h).1 this

/-- The only well-formed fragment lists whose stream has exactly two values:
two singles, or one length-2 repeat. -/
theorem streamTwoShape {G : List Frag} (hG : ∀ g ∈ G, wfFrag g)
    {x y : Int} (h : fragStream G = [x, y]) :
    G = [.single x, .single y] ∨ (x = y ∧ G = [.rep x 2]) := by
  match G with
  | [] => simp [fragStream] at h
  | [g] =>
    rw [fragStream_cons] at h
    simp only [fragStream, List.map_nil, List.flatten_nil, List.append_nil] at h
    match g with
    | .single a => simp [fragVals] at h
    | .rep a k =>
      have hk : 2 ≤ k := hG _ (List.mem_cons_self _ _)
      simp only [fragVals] at h
      match k, hk with
      | 2, _ =>
        simp [List.replicate] at h
        right
        obtain ⟨hx, hy⟩ := h
        subst hx; subst hy
        exact ⟨rfl, rfl⟩
      | k + 3, _ =>
        have : (List.replicate (k + 3) a).length = [x, y].length := by rw [h]
        simp at this
    | .rng a st l =>
      obtain ⟨h1, hl⟩ := hG _ (List.mem_cons_self _ _)
      have hlen : (fragVals (Frag.rng a st l)).length = [x, y].length := by rw [h]
      simp only [fragVals, List.length_map, List.length_range, List.length_cons,
        List.length_nil] at hlen
      omega
  | g1 :: g2 :: G3 =>
    rw [fragStream_cons, fragStream_cons] at h
    have h1 := fragVals_ne_nil (hG g1 (List.mem_cons_self _ _))
    have h2 := fragVals_ne_nil (hG g2 (List.mem_cons_of_mem _ (List.mem_cons_self _ _)))
    -- each fragment contributes at least one value, and the total is 2
    have hlen : (fragVals g1).length + ((fragVals g2).length
        + (fragStream G3).length) = 2 := by
      have := congrArg List.length h
      simpa using this
    have e1 : (fragVals g1).length = 1 := by
      have := List.length_pos.mpr h1
      have := List.length_pos.mpr h2
      omega
    have e2 : (fragVals g2).length = 1 := by
      have := List.length_pos.mpr h1
      have := List.length_pos.mpr h2
      omega
    have e3 : fragStream G3 = [] := by
      have := List.length_pos.mpr h1
      have := List.length_pos.mpr h2
      have h3 : (fragStream G3).length = 0 := by omega
      exact List.length_eq_zero.mp h3
    have hG3 : G3 = [] := fragStream_eq_nil
      (fun g hg => hG g (List.mem_cons_of_mem _ (List.mem_cons_of_mem _ hg))) e3
    subst hG3
    -- a fragment with exactly one value is a single
    have s1 : ∃ a1, g1 = .single a1 ∧ fragVals g1 = [a1] := by
      match g1 with
      | .single a => exact ⟨a, rfl, rfl⟩
      | .rep a k =>
        have hk : 2 ≤ k := hG _ (List.mem_cons_self _ _)
        simp only [fragVals, List.length_replicate] at e1
        omega
      | .rng a st l =>
        obtain ⟨_, hl⟩ := hG _ (List.mem_cons_self _ _)
        simp only [fragVals, List.length_map, List.length_range] at e1
        omega
    have s2 : ∃ a2, g2 = .single a2 ∧ fragVals g2 = [a2] := by
      match g2 with
      | .single a => exact ⟨a, rfl, rfl⟩
      | .rep a k =>
        have hk : 2 ≤ k := hG _ (List.mem_cons_of_mem _ (List.mem_cons_self _ _))
        simp only [fragVals, List.length_replicate] at e2
        omega
      | .rng a st l =>
        obtain ⟨_, hl⟩ := hG _ (List.mem_cons_of_mem _ (List.mem_cons_self _ _))
        simp only [fragVals, List.length_map, List.length_range] at e2
        omega
    obtain ⟨a1, hg1, hv1⟩ := s1
    obtain ⟨a2, hg2, hv2⟩ := s2
    subst hg1; subst hg2
    rw [hv1, hv2] at h
    simp only [fragStream, List.map_nil, List.flatten_nil, List.append_nil] at h
    simp only [List.cons_append, List.nil_append, List.cons.injEq] at h
    obtain ⟨hx, hy, -⟩ := h
    left
    rw [hx, hy]

theorem floop_break (start e n step : Int) (len : Nat) (rest : List Int)
    (hap : ¬ n = start + step * len) (hb : (3 ≤ len || step = 0) = true) :
    floop start e n step len rest = mkBuild start step len :: contBreak len n rest := by
  rw [floop.eq_def]
  simp only [if_neg hap, hb, if_true]
  match rest with
  | [] => rfl
  | [e2] => rfl
  | e2 :: m :: rest3 => rfl

theorem range_map_two {α : Type} (f : Nat → α) (m : Nat) :
    (List.range (m + 2)).map f
      = f 0 :: f 1 :: (List.range m).map (fun i => f (i + 2)) := by
  rw [List.range_succ_eq_map, List.range_succ_eq_map]
  simp [List.map_map, Function.comp_def]

theorem range_map_three {α : Type} (f : Nat → α) (m : Nat) :
    (List.range (m + 3)).map f
      = f 0 :: f 1 :: f 2 :: (List.range m).map (fun i => f (i + 3)) := by
  rw [List.range_succ_eq_map, List.range_succ_eq_map, List.range_succ_eq_map]
  simp [List.map_map, Function.comp_def]

theorem fragVals_mkBuild_two (s st : Int) (l : Nat) (hl : 2 ≤ l) :
    ∃ t, fragVals (mkBuild s st l) = s :: (s + st) :: t := by
  unfold mkBuild
  by_cases h0 : st = 0
  · subst h0
    simp only [if_pos rfl, fragVals]
    match l, hl with
    | m + 2, _ =>
      exact ⟨List.replicate m s, by simp [List.replicate, List.replicate_succ]⟩
  · simp only [if_neg h0, fragVals]
    match l, hl with
    | m + 2, _ =>
      refine ⟨(List.range m).map (fun (i : Nat) => s + st * ((i + 2 : Nat) : Int)), ?_⟩
      rw [range_map_two]
      norm_num

theorem replicate_eq_range_map (s : Int) (L : Nat) :
    List.replicate L s = (List.range L).map (fun (i : Nat) => s + 0 * (i : Int)) := by
  induction L with
  | zero => rfl
  | succ m ih =>
    rw [List.replicate_succ', List.range_succ, List.map_append, ← ih]
    simp

theorem fragVals_mkBuild (s st : Int) (L : Nat) :
    fragVals (mkBuild s st L)
      = (List.range L).map (fun (i : Nat) => s + st * (i : Int)) := by
  unfold mkBuild
  by_cases h0 : st = 0
  · subst h0
    rw [if_pos rfl]
    simp only [fragVals]
    exact replicate_eq_range_map s L
  · rw [if_neg h0]
    simp [fragVals]

theorem floop_len_nil (s e n st : Int) (l : Nat) (h2 : 2 ≤ l) :
    l + 1 ≤ (fragStream (floop s e n st l [])).length := by
  rw [floop.eq_def]
  by_cases hap : n = s + st * l
  · simp only [if_pos hap]
    have h1 : fragStream [mkBuild s st (l + 1)] = fragVals (mkBuild s st (l + 1)) := by
      simp [fragStream]
    rw [h1, fragVals_mkBuild]
    simp
  · by_cases hb : (3 ≤ l || st = 0) = true
    · simp only [if_neg hap, hb, if_true]
      rw [fragStream_cons, fragVals_mkBuild]
      simp [fragStream, fragVals]
    · rw [Bool.not_eq_true] at hb
      simp only [if_neg hap, hb, Bool.false_eq_true, if_false]
      rw [fragStream_cons]
      simp only [Bool.or_eq_false_iff, decide_eq_false_iff_not] at hb
      by_cases hz : n - e = 0
      · simp only [if_pos hz]
        simp [fragStream, fragVals]
      · simp only [if_neg hz]
        simp [fragStream, fragVals]
        omega

theorem floop_stream_len (nn : Nat) :
    ∀ (rest : List Int) (s e n st : Int) (l : Nat),
      rest.length ≤ nn → 2 ≤ l →
      l + 1 + rest.length ≤ (fragStream (floop s e n st l rest)).length := by
  induction nn with
  | zero =>
    intro rest s e n st l hr h2
    have hrest : rest = [] := List.length_eq_zero.mp (Nat.le_zero.mp hr)
    subst hrest
    simpa using floop_len_nil s e n st l h2
  | succ nn ih =>
    intro rest s e n st l hr h2
    match rest with
    | [] => simpa using floop_len_nil s e n st l h2
    | m :: rest2 =>
      simp only [List.length_cons] at hr ⊢
      by_cases hap : n = s + st * l
      · rw [floop.eq_def]
        simp only [if_pos hap]
        have := ih rest2 s n m st (l + 1) (by omega) (by omega)
        omega
      · by_cases hb : (3 ≤ l || st = 0) = true
        · rw [floop_break s e n st l (m :: rest2) hap hb, fragStream_cons,
            fragVals_mkBuild]
          rw [contBreak.eq_def]
          match rest2 with
          | [] =>
            by_cases hz : m - n = 0
            · simp only [if_pos hz]
              simp [fragStream, fragVals]
              omega
            · simp only [if_neg hz]
              simp [fragStream, fragVals]
          | m2 :: rest3 =>
            simp only [List.length_cons] at hr ⊢
            have := ih rest3 n m m2 (m - n) 2 (by omega) (le_refl 2)
            simp only [List.length_append, List.length_map, List.length_range]
            omega
        · rw [Bool.not_eq_true] at hb
          rw [floop.eq_def]
          simp only [if_neg hap, hb, Bool.false_eq_true, if_false]
          rw [fragStream_cons]
          have := ih rest2 e n m (n - e) 2 (by omega) (le_refl 2)
          simp only [Bool.or_eq_false_iff, decide_eq_false_iff_not] at hb
          simp only [fragVals, List.singleton_append, List.length_cons]
          omega

theorem stream_ap_flush (s st : Int) (l : Nat) (h1 : 1 ≤ l) :
    ∃ t, fragStream [mkBuild s st (l + 1)] = s :: (s + st) :: t := by
  obtain ⟨t, ht⟩ := fragVals_mkBuild_two s st (l + 1) (by omega)
  refine ⟨t, ?_⟩
  have h : fragStream [mkBuild s st (l + 1)] = fragVals (mkBuild s st (l + 1)) := by
    simp [fragStream]
  rw [h, ht]

theorem floop_streamTwo_nil (s e n st : Int) (l : Nat) (h2 : 2 ≤ l)
    (he : e = s + st * ((l : Int) - 1)) :
    ∃ t, fragStream (floop s e n st l []) = s :: (s + st) :: t := by
  rw [floop.eq_def]
  by_cases hap : n = s + st * l
  · simp only [if_pos hap]
    exact stream_ap_flush s st l (by omega)
  · by_cases hb : (3 ≤ l || st = 0) = true
    · simp only [if_neg hap, hb, if_true]
      obtain ⟨t, ht⟩ := fragVals_mkBuild_two s st l h2
      refine ⟨t ++ fragStream [Frag.single n], ?_⟩
      rw [fragStream_cons, ht]
      simp
    · rw [Bool.not_eq_true] at hb
      simp only [if_neg hap, hb, Bool.false_eq_true, if_false]
      simp only [Bool.or_eq_false_iff, decide_eq_false_iff_not] at hb
      have hl2 : l = 2 := by omega
      subst hl2
      have he2 : e = s + st := by rw [he]; norm_num
      by_cases hz : n - e = 0
      · refine ⟨[e], ?_⟩
        simp only [if_pos hz]
        rw [fragStream_cons]
        simp [fragStream, fragVals, he2, List.replicate]
      · refine ⟨[n], ?_⟩
        simp only [if_neg hz]
        rw [fragStream_cons]
        simp [fragStream, fragVals, he2]

theorem floop_streamTwo (nn : Nat) :
    ∀ (rest : List Int) (s e n st : Int) (l : Nat),
      rest.length ≤ nn → 2 ≤ l → e = s + st * ((l : Int) - 1) →
      ∃ t, fragStream (floop s e n st l rest) = s :: (s + st) :: t := by
  induction nn with
  | zero =>
    intro rest s e n st l hr h2 he
    have hrest : rest = [] := List.length_eq_zero.mp (Nat.le_zero.mp hr)
    subst hrest
    exact floop_streamTwo_nil s e n st l h2 he
  | succ nn ih =>
    intro rest s e n st l hr h2 he
    match rest with
    | [] => exact floop_streamTwo_nil s e n st l h2 he
    | m :: rest2 =>
      simp only [List.length_cons] at hr
      by_cases hap : n = s + st * l
      · rw [floop.eq_def]
        simp only [if_pos hap]
        exact ih rest2 s n m st (l + 1) (by omega) (by omega)
          (by push_cast; rw [hap]; ring)
      · by_cases hb : (3 ≤ l || st = 0) = true
        · rw [floop_break s e n st l (m :: rest2) hap hb, fragStream_cons]
          obtain ⟨t, ht⟩ := fragVals_mkBuild_two s st l h2
          exact ⟨t ++ fragStream (contBreak l n (m :: rest2)), by rw [ht]; simp⟩
        · rw [Bool.not_eq_true] at hb
          rw [floop.eq_def]
          simp only [if_neg hap, hb, Bool.false_eq_true, if_false]
          simp only [Bool.or_eq_false_iff, decide_eq_false_iff_not] at hb
          have hl2 : l = 2 := by omega
          subst hl2
          have he2 : e = s + st := by rw [he]; norm_num
          obtain ⟨t, ht⟩ := ih rest2 e n m (n - e) 2 (by omega) (le_refl 2)
            (by push_cast; ring)
          refine ⟨(e + (n - e)) :: t, ?_⟩
          rw [fragStream_cons, ht]
          simp [fragVals, he2]

theorem floop_shape (s e n st : Int) (l : Nat) (rest : List Int) (h2 : 2 ≤ l) :
    3 ≤ (fragStream (floop s e n st l rest)).length := by
  have := floop_stream_len rest.length rest s e n st l (le_refl _) h2
  omega

theorem floop_ne_nil (s e n st : Int) (l : Nat) (rest : List Int) (h2 : 2 ≤ l) :
    floop s e n st l rest ≠ [] := by
  intro h
  have h3 := floop_shape s e n st l rest h2
  rw [h] at h3
  simp [fragStream] at h3

theorem floop_not_single (s e n st y : Int) (l : Nat) (rest : List Int) (h2 : 2 ≤ l) :
    floop s e n st l rest ≠ [.single y] := by
  intro h
  have h3 := floop_shape s e n st l rest h2
  rw [h] at h3
  simp [fragStream, fragVals] at h3

theorem floop_not_rep2 (s e n st v : Int) (l : Nat) (rest : List Int) (h2 : 2 ≤ l) :
    floop s e n st l rest ≠ [.rep v 2] := by
  intro h
  have h3 := floop_shape s e n st l rest h2
  rw [h] at h3
  simp [fragStream, fragVals] at h3

theorem floop_not_pair (s e n st x y : Int) (l : Nat) (rest : List Int) (h2 : 2 ≤ l) :
    floop s e n st l rest ≠ [.single x, .single y] := by
  intro h
  have h3 := floop_shape s e n st l rest h2
  rw [h] at h3
  simp [fragStream, fragVals] at h3

theorem floop_rep_absorb (a : Int) :
    ∀ (j : Nat) (S : List Int) (l : Nat), 2 ≤ l →
      (∀ v S2, S = v :: S2 → v ≠ a) →
      floop a a a 0 l (List.replicate j a ++ S)
        = match S with
          | [] => [Frag.rep a (l + j + 1)]
          | v :: S2 => Frag.rep a (l + j + 1) :: contBreak (l + j + 1) v S2 := by
  intro j
  induction j with
  | zero =>
    intro S l h2 hS
    simp only [List.replicate, List.nil_append]
    match S with
    | [] =>
      rw [floop.eq_def]
      simp only [if_pos (show a = a + 0 * ((l : Nat) : Int) by ring)]
      simp [mkBuild]
    | v :: S2 =>
      rw [floop.eq_def]
      simp only [if_pos (show a = a + 0 * ((l : Nat) : Int) by ring)]
      rw [floop_break a a v 0 (l + 1) S2
        (by simpa using hS v S2 rfl) (by simp)]
      simp [mkBuild]
  | succ j ih =>
    intro S l h2 hS
    rw [List.replicate_succ, List.cons_append]
    rw [floop.eq_def]
    simp only [if_pos (show a = a + 0 * ((l : Nat) : Int) by ring)]
    rw [ih S (l + 1) (by omega) hS]
    have harith : l + 1 + j + 1 = l + (j + 1) + 1 := by omega
    rw [harith]

/-- The values of an arithmetic run after the first `m`, as a list. -/
def runTail (a st : Int) (m j : Nat) : List Int :=
  (List.range j).map (fun (i : Nat) => a + st * ((m + i : Nat) : Int))

theorem runTail_succ (a st : Int) (m j : Nat) :
    runTail a st m (j + 1) = (a + st * ((m : Nat) : Int)) :: runTail a st (m + 1) j := by
  unfold runTail
  rw [List.range_succ_eq_map, List.map_cons, List.map_map]
  rw [List.cons_eq_cons]
  refine ⟨by norm_num, ?_⟩
  apply List.map_congr_left
  intro i _
  simp only [Function.comp_apply]
  push_cast
  ring

theorem floop_ap_absorb (a st : Int) (hst : st ≠ 0) :
    ∀ (j : Nat) (S : List Int) (L : Nat), 2 ≤ L →
      (∀ v S2, S = v :: S2 → v ≠ a + st * ((L + j + 1 : Nat) : Int)) →
      floop a (a + st * ((L : Int) - 1)) (a + st * (L : Int)) st L
        (runTail a st (L + 1) j ++ S)
        = match S with
          | [] => [Frag.rng a st (L + j + 1)]
          | v :: S2 => Frag.rng a st (L + j + 1) :: contBreak (L + j + 1) v S2 := by
  intro j
  induction j with
  | zero =>
    intro S L h2 hS
    simp only [runTail, List.range_zero, List.map_nil, List.nil_append]
    match S with
    | [] =>
      rw [floop.eq_def]
      simp only [if_pos (show a + st * ((L : Nat) : Int)
        = a + st * ((L : Nat) : Int) from rfl)]
      simp [mkBuild, hst]
    | v :: S2 =>
      rw [floop.eq_def]
      simp only [if_pos (show a + st * ((L : Nat) : Int)
        = a + st * ((L : Nat) : Int) from rfl)]
      rw [floop_break a (a + st * ((L : Nat) : Int)) v st (L + 1) S2
        (fun hcon => hS v S2 rfl (by rw [hcon]))
        (by
          have h3 : 3 ≤ L + 1 := by omega
          simp [h3])]
      simp [mkBuild, hst]
  | succ j ih =>
    intro S L h2 hS
    rw [runTail_succ, List.cons_append]
    rw [floop.eq_def]
    simp only [if_pos (show a + st * ((L : Nat) : Int)
      = a + st * ((L : Nat) : Int) from rfl)]
    have he : a + st * ((L : Nat) : Int) = a + st * (((L + 1 : Nat) : Int) - 1) := by
      push_cast
      ring
    rw [he]
    rw [ih S (L + 1) (by omega) (fun v S2 hv hcon => hS v S2 hv (by
      rw [hcon]
      have harith : L + 1 + j + 1 = L + (j + 1) + 1 := by omega
      rw [harith]))]
    have harith2 : L + 1 + j + 1 = L + (j + 1) + 1 := by omega
    rw [harith2]
    rw [if_pos trivial]

theorem contBreak_eq (L : Nat) (v : Int) (S2 : List Int)
    (hstale : ∀ e2, S2 = [e2] → e2 = v → L = 2) :
    contBreak L v S2 = fmtFrags (v :: S2) := by
  match S2 with
  | [] => rfl
  | [e2] =>
    rw [contBreak.eq_def]
    by_cases hz : e2 - v = 0
    · have hl : L = 2 := hstale e2 rfl (by omega)
      subst hl
      have hv : v = e2 := by omega
      subst hv
      simp only [if_pos hz, fmtFrags]
      rw [if_pos trivial]
    · simp only [if_neg hz, fmtFrags]
      have hne : ¬ v = e2 := by omega
      simp [hne]
  | e2 :: m :: rest3 =>
    rw [contBreak.eq_def]
    simp only [fmtFrags]

theorem contBreak_jHead (L : Nat) (v : Int) (S2 : List Int) (hL : 1 ≤ L) :
    jHead (contBreak L v S2) = some v := by
  match S2 with
  | [] => simp [contBreak, jHead, fragStream, fragVals]
  | [e2] =>
    rw [contBreak.eq_def]
    by_cases hz : e2 - v = 0
    · simp only [if_pos hz]
      match L, hL with
      | (m + 1), _ =>
        simp [jHead, fragStream, fragVals, List.replicate_succ]
    · simp only [if_neg hz]
      simp [jHead, fragStream, fragVals]
  | e2 :: m :: rest3 =>
    rw [contBreak.eq_def]
    obtain ⟨t, ht⟩ := floop_streamTwo rest3.length rest3 v e2 m (e2 - v) 2
      (le_refl _) (le_refl 2) (by push_cast; ring)
    simp [jHead, ht]

theorem floop_slide_eq (a v1 v2 : Int) (S2 : List Int)
    (h1 : v1 ≠ a) (h2 : v2 ≠ 2 * v1 - a) :
    floop a v1 v2 (v1 - a) 2 S2 = .single a :: fmtFrags (v1 :: v2 :: S2) := by
  rw [floop.eq_def]
  have hap : ¬ v2 = a + (v1 - a) * ((2 : Nat) : Int) := by
    intro h
    apply h2
    rw [h]
    push_cast
    ring
  have hb : (decide (3 ≤ 2) || decide (v1 - a = 0)) = false := by
    simp [sub_eq_zero, h1]
  simp only [if_neg hap, hb, Bool.false_eq_true, if_false]
  match S2 with
  | [] =>
    simp only [fmtFrags]
    by_cases hz : v2 - v1 = 0
    · have hv : v1 = v2 := by omega
      subst hv
      simp [hz]
    · have hne : ¬ v1 = v2 := by omega
      simp [hz, hne]
  | m :: rest =>
    simp only [fmtFrags]

theorem rngVals_decomp (a st : Int) (m : Nat) :
    fragVals (.rng a st (m + 3))
      = a :: (a + st * (((2 : Nat) : Int) - 1)) :: (a + st * ((2 : Nat) : Int))
        :: runTail a st (2 + 1) m := by
  simp only [fragVals]
  rw [range_map_three]
  simp only [List.cons_eq_cons]
  refine ⟨by norm_num, by push_cast; ring, trivial, ?_⟩
  unfold runTail
  apply List.map_congr_left
  intro i _
  push_cast
  ring

theorem fmt_step (f : Frag) (G : List Frag) (hf : wfFrag f) (hj : Jcond f G)
    (hG : ∀ g ∈ G, wfFrag g) :
    fmtFrags (fragVals f ++ fragStream G) = f :: fmtFrags (fragStream G) := by
  match f with
  | .single a =>
    obtain ⟨hj1, hj2⟩ := hj
    simp only [fragVals, List.cons_append, List.nil_append]
    match hS : fragStream G with
    | [] => simp [fmtFrags]
    | [v1] =>
      have hne : v1 ≠ a := hj1 v1 (by simp [jHead, hS])
      rw [show fmtFrags [a, v1] = if a = v1 then [Frag.rep a 2]
          else [Frag.single a, Frag.single v1] from rfl]
      rw [if_neg (fun h => hne h.symm)]
      rfl
    | v1 :: v2 :: S2 =>
      have hne : v1 ≠ a := hj1 v1 (by simp [jHead, hS])
      have hne2 : v2 ≠ 2 * v1 - a :=
        hj2 v1 v2 (by simp [jHead, hS]) (by simp [jSecond, hS])
      rw [show fmtFrags (a :: v1 :: v2 :: S2)
          = floop a v1 v2 (v1 - a) 2 S2 from rfl]
      exact floop_slide_eq a v1 v2 S2 hne hne2
  | .rep a k =>
    obtain ⟨hj1, hj2, hj3⟩ := hj
    have hk : 2 ≤ k := hf
    match hS : fragStream G with
    | [] =>
      rw [List.append_nil]
      rcases Nat.lt_or_ge k 3 with hk3 | hk3
      · have hk2 : k = 2 := by omega
        subst hk2
        simp [fmtFrags, List.replicate, fragVals]
      · obtain ⟨m, rfl⟩ : ∃ m, k = m + 3 := ⟨k - 3, by omega⟩
        have h : floop a a a 0 2 (List.replicate m a) = [Frag.rep a (2 + m + 1)] := by
          have h0 := floop_rep_absorb a m [] 2 (le_refl 2)
            (by intro v S2 hh; exact absurd hh (by simp))
          rw [List.append_nil] at h0
          exact h0
        have hrep : fragVals (Frag.rep a (m + 3)) = a :: a :: a :: List.replicate m a := by
          simp [fragVals, List.replicate_succ]
        rw [hrep]
        rw [show fmtFrags (a :: a :: a :: List.replicate m a)
            = floop a a a (a - a) 2 (List.replicate m a) from rfl]
        rw [sub_self, h]
        rw [show 2 + m + 1 = m + 3 from by omega]
        rfl
    | v :: S2 =>
      have hva : v ≠ a := hj1 v (by simp [jHead, hS])
      rcases Nat.lt_or_ge k 3 with hk3 | hk3
      · have hk2 : k = 2 := by omega
        subst hk2
        have hrep : fragVals (Frag.rep a 2) ++ (v :: S2) = a :: a :: v :: S2 := by
          simp [fragVals, List.replicate]
        rw [hrep]
        rw [show fmtFrags (a :: a :: v :: S2)
            = floop a a v (a - a) 2 S2 from rfl]
        rw [sub_self]
        rw [floop_break a a v 0 2 S2
          (by intro hcon; apply hva; rw [hcon]; ring) (by simp)]
        rw [contBreak_eq 2 v S2 (fun e2 _ _ => rfl)]
        rw [show mkBuild a 0 2 = Frag.rep a 2 from by simp [mkBuild]]
      · obtain ⟨m, rfl⟩ : ∃ m, k = m + 3 := ⟨k - 3, by omega⟩
        have hrep : fragVals (Frag.rep a (m + 3)) ++ (v :: S2)
            = a :: a :: a :: (List.replicate m a ++ (v :: S2)) := by
          simp [fragVals, List.replicate_succ]
        rw [hrep]
        rw [show fmtFrags (a :: a :: a :: (List.replicate m a ++ (v :: S2)))
            = floop a a a (a - a) 2 (List.replicate m a ++ (v :: S2)) from rfl]
        rw [sub_self]
        have h : floop a a a 0 2 (List.replicate m a ++ (v :: S2))
            = Frag.rep a (2 + m + 1) :: contBreak (2 + m + 1) v S2 :=
          floop_rep_absorb a m (v :: S2) 2 (le_refl 2)
            (by intro w W hw; injection hw with h1 h2; subst h1; exact hva)
        rw [h]
        rw [show 2 + m + 1 = m + 3 from by omega]
        have hstale : ∀ e2, S2 = [e2] → e2 = v → m + 3 = 2 := by
          intro e2 he2 hev
          have hvv : fragStream G = [v, v] := by rw [hS, he2, hev]
          rcases streamTwoShape hG hvv with hcase | ⟨_, hcase⟩
          · exact absurd rfl (hj3 v v hcase)
          · have := hj2 v hcase
            omega
        rw [contBreak_eq (m + 3) v S2 hstale]
  | .rng a st l =>
    obtain ⟨hj1, hj2, hj3⟩ := hj
    obtain ⟨hst, hl3⟩ := hf
    obtain ⟨m, rfl⟩ : ∃ m, l = m + 3 := ⟨l - 3, by omega⟩
    rw [rngVals_decomp a st m]
    match hS : fragStream G with
    | [] =>
      simp only [List.cons_append, List.append_nil]
      rw [show fmtFrags (a :: (a + st * (((2 : Nat) : Int) - 1))
            :: (a + st * ((2 : Nat) : Int)) :: runTail a st (2 + 1) m)
          = floop a (a + st * (((2 : Nat) : Int) - 1)) (a + st * ((2 : Nat) : Int))
              ((a + st * (((2 : Nat) : Int) - 1)) - a) 2 (runTail a st (2 + 1) m)
          from rfl]
      rw [show a + st * (((2 : Nat) : Int) - 1) - a = st from by push_cast; ring]
      have h : floop a (a + st * (((2 : Nat) : Int) - 1)) (a + st * ((2 : Nat) : Int))
          st 2 (runTail a st (2 + 1) m) = [Frag.rng a st (2 + m + 1)] := by
        have h0 := floop_ap_absorb a st hst m [] 2 (le_refl 2)
          (by intro w W hw; exact absurd hw (by simp))
        rw [List.append_nil] at h0
        exact h0
      rw [h]
      rw [show 2 + m + 1 = m + 3 from by omega]
      rfl
    | v :: S2 =>
      have hva : v ≠ a + st * ((m + 3 : Nat) : Int) := hj1 v (by simp [jHead, hS])
      simp only [List.cons_append]
      rw [show fmtFrags (a :: (a + st * (((2 : Nat) : Int) - 1))
            :: (a + st * ((2 : Nat) : Int)) :: (runTail a st (2 + 1) m ++ (v :: S2)))
          = floop a (a + st * (((2 : Nat) : Int) - 1)) (a + st * ((2 : Nat) : Int))
              ((a + st * (((2 : Nat) : Int) - 1)) - a) 2
              (runTail a st (2 + 1) m ++ (v :: S2))
          from rfl]
      rw [show a + st * (((2 : Nat) : Int) - 1) - a = st from by push_cast; ring]
      have h : floop a (a + st * (((2 : Nat) : Int) - 1)) (a + st * ((2 : Nat) : Int))
          st 2 (runTail a st (2 + 1) m ++ (v :: S2))
          = Frag.rng a st (2 + m + 1) :: contBreak (2 + m + 1) v S2 :=
        floop_ap_absorb a st hst m (v :: S2) 2 (le_refl 2)
          (by
            intro w W hw
            injection hw with h1 h2
            subst h1
            intro hcon
            apply hva
            rw [hcon]
            rw [show 2 + m + 1 = m + 3 from by omega])
      rw [h]
      rw [show 2 + m + 1 = m + 3 from by omega]
      have hstale : ∀ e2, S2 = [e2] → e2 = v → m + 3 = 2 := by
        intro e2 he2 hev
        have hvv : fragStream G = [v, v] := by rw [hS, he2, hev]
        rcases streamTwoShape hG hvv with hcase | ⟨_, hcase⟩
        · exact absurd rfl (hj3 v v hcase)
        · exact absurd hcase (fun hc => hj2 v hc)
      rw [contBreak_eq (m + 3) v S2 hstale]

theorem refmt {F : List Frag} (h : Wchain F) : fmtFrags (fragStream F) = F := by
  induction h with
  | nil => rfl
  | cons f G hwf hj hW ih =>
    rw [fragStream_cons, fmt_step f G hwf hj (Wchain_wf hW), ih]

theorem wf_mkBuild (s st : Int) (L : Nat) (h2 : 2 ≤ L) (h3 : st ≠ 0 → 3 ≤ L) :
    wfFrag (mkBuild s st L) := by
  unfold mkBuild
  by_cases h0 : st = 0
  · rw [if_pos h0]
    exact h2
  · rw [if_neg h0]
    exact ⟨h0, h3 h0⟩

theorem Jcond_mkBuild (s st n : Int) (l : Nat) (G : List Frag)
    (hhead : jHead G = some n)
    (hnap : n ≠ s + st * (l : Int))
    (hrep2 : ∀ v, G = [.rep v 2] → l = 2)
    (hpair : ∀ x y, G = [.single x, .single y] → x ≠ y)
    (h3 : st ≠ 0 → 3 ≤ l) :
    Jcond (mkBuild s st l) G := by
  unfold mkBuild
  by_cases h0 : st = 0
  · rw [if_pos h0]
    refine ⟨?_, ?_, ?_⟩
    · intro v1 hv1
      rw [hhead] at hv1
      injection hv1 with hv
      subst hv
      intro hcon
      apply hnap
      rw [hcon, h0]
      ring
    · exact hrep2
    · exact hpair
  · rw [if_neg h0]
    refine ⟨?_, ?_, ?_⟩
    · intro v1 hv1
      rw [hhead] at hv1
      injection hv1 with hv
      subst hv
      exact hnap
    · intro v hv
      have := hrep2 v hv
      have := h3 h0
      omega
    · exact hpair

theorem contBreak_eq_rep2 (L : Nat) (n v : Int) (rest : List Int)
    (h : contBreak L n rest = [.rep v 2]) : L = 2 := by
  match rest with
  | [] => simp [contBreak] at h
  | [e2] =>
    rw [show contBreak L n [e2] = if e2 - n = 0 then [Frag.rep n L]
        else [Frag.single n, Frag.single e2] from rfl] at h
    by_cases hz : e2 - n = 0
    · rw [if_pos hz] at h
      injection h with h1 h2
      injection h1 with h3 h4
    · rw [if_neg hz] at h
      simp at h
  | e2 :: m :: rest3 =>
    rw [show contBreak L n (e2 :: m :: rest3)
        = floop n e2 m (e2 - n) 2 rest3 from rfl] at h
    exact absurd h (floop_not_rep2 n e2 m (e2 - n) v 2 rest3 (le_refl 2))

theorem contBreak_pair (L : Nat) (n x y : Int) (rest : List Int)
    (h : contBreak L n rest = [.single x, .single y]) : x ≠ y := by
  match rest with
  | [] => simp [contBreak] at h
  | [e2] =>
    rw [show contBreak L n [e2] = if e2 - n = 0 then [Frag.rep n L]
        else [Frag.single n, Frag.single e2] from rfl] at h
    by_cases hz : e2 - n = 0
    · rw [if_pos hz] at h
      simp at h
    · rw [if_neg hz] at h
      injection h with h1 h2
      injection h1 with h3
      injection h2 with h4 h5
      injection h4 with h6
      subst h3
      subst h6
      omega
  | e2 :: m :: rest3 =>
    rw [show contBreak L n (e2 :: m :: rest3)
        = floop n e2 m (e2 - n) 2 rest3 from rfl] at h
    exact absurd h (floop_not_pair n e2 m (e2 - n) x y 2 rest3 (le_refl 2))

theorem contBreak_W_of (L : Nat) (n : Int) (rest : List Int) (hL : 2 ≤ L)
    (hfl : ∀ (e2 m : Int) (rest3 : List Int), rest = e2 :: m :: rest3 →
      Wchain (floop n e2 m (e2 - n) 2 rest3)) :
    Wchain (contBreak L n rest) := by
  match rest with
  | [] =>
    exact Wchain.cons _ _ trivial (Jcond_nil _) Wchain.nil
  | [e2] =>
    rw [show contBreak L n [e2] = if e2 - n = 0 then [Frag.rep n L]
        else [Frag.single n, Frag.single e2] from rfl]
    by_cases hz : e2 - n = 0
    · rw [if_pos hz]
      exact Wchain.cons _ _ hL (Jcond_nil _) Wchain.nil
    · rw [if_neg hz]
      refine Wchain.cons _ _ trivial ?_ ?_
      · refine ⟨?_, ?_⟩
        · intro v1 hv1
          simp [jHead, fragStream, fragVals] at hv1
          omega
        · intro v1 v2 hv1 hv2
          simp [jSecond, fragStream, fragVals] at hv2
      · exact Wchain.cons _ _ trivial (Jcond_nil _) Wchain.nil
  | e2 :: m :: rest3 =>
    rw [show contBreak L n (e2 :: m :: rest3)
        = floop n e2 m (e2 - n) 2 rest3 from rfl]
    exact hfl e2 m rest3 rfl

theorem floop_W_nil (s e n st : Int) (l : Nat) (h2 : 2 ≤ l)
    (he : e = s + st * ((l : Int) - 1)) :
    Wchain (floop s e n st l []) := by
  rw [floop.eq_def]
  by_cases hap : n = s + st * l
  · simp only [if_pos hap]
    exact Wchain.cons _ _ (wf_mkBuild s st (l + 1) (by omega) (fun _ => by omega))
      (Jcond_nil _) Wchain.nil
  · by_cases hb : (3 ≤ l || st = 0) = true
    · simp only [if_neg hap, hb, if_true]
      have hb' : 3 ≤ l ∨ st = 0 := by simpa using hb
      have h3 : st ≠ 0 → 3 ≤ l := by
        intro h0
        rcases hb' with h | h
        · exact h
        · exact absurd h h0
      refine Wchain.cons _ _ (wf_mkBuild s st l h2 h3) ?_ ?_
      · refine Jcond_mkBuild s st n l _ ?_ hap ?_ ?_ h3
        · simp [jHead, fragStream, fragVals]
        · intro v hv
          simp at hv
        · intro x y hxy
          simp at hxy
      · exact Wchain.cons _ _ trivial (Jcond_nil _) Wchain.nil
    · rw [Bool.not_eq_true] at hb
      simp only [if_neg hap, hb, Bool.false_eq_true, if_false]
      simp only [Bool.or_eq_false_iff, decide_eq_false_iff_not] at hb
      obtain ⟨hl3, hst⟩ := hb
      have hl2 : l = 2 := by omega
      subst hl2
      have he2 : e = s + st := by rw [he]; norm_num
      by_cases hz : n - e = 0
      · rw [if_pos hz]
        refine Wchain.cons _ _ trivial ?_
          (Wchain.cons _ _ (le_refl 2) (Jcond_nil _) Wchain.nil)
        refine ⟨?_, ?_⟩
        · intro v1 hv1
          simp [jHead, fragStream, fragVals, List.replicate] at hv1
          subst hv1
          rw [he2]
          intro hcon
          apply hst
          omega
        · intro v1 v2 hv1 hv2
          simp [jHead, fragStream, fragVals, List.replicate] at hv1
          simp [jSecond, fragStream, fragVals, List.replicate] at hv2
          subst hv1
          subst hv2
          rw [he2]
          intro hcon
          apply hst
          omega
      · rw [if_neg hz]
        refine Wchain.cons _ _ trivial ?_ ?_
        · refine ⟨?_, ?_⟩
          · intro v1 hv1
            simp [jHead, fragStream, fragVals] at hv1
            subst hv1
            rw [he2]
            intro hcon
            apply hst
            omega
          · intro v1 v2 hv1 hv2
            simp [jHead, fragStream, fragVals] at hv1
            simp [jSecond, fragStream, fragVals] at hv2
            subst hv1
            subst hv2
            intro hcon
            apply hap
            rw [hcon, he2]
            push_cast
            ring
        · refine Wchain.cons _ _ trivial ?_
            (Wchain.cons _ _ trivial (Jcond_nil _) Wchain.nil)
          refine ⟨?_, ?_⟩
          · intro v1 hv1
            simp [jHead, fragStream, fragVals] at hv1
            subst hv1
            intro hcon
            apply hz
            omega
          · intro v1 v2 hv1 hv2
            simp [jSecond, fragStream, fragVals] at hv2

theorem floop_W (nn : Nat) :
    ∀ (rest : List Int) (s e n st : Int) (l : Nat),
      rest.length ≤ nn → 2 ≤ l → e = s + st * ((l : Int) - 1) →
      Wchain (floop s e n st l rest) := by
  induction nn with
  | zero =>
    intro rest s e n st l hr h2 he
    have hrest : rest = [] := List.length_eq_zero.mp (Nat.le_zero.mp hr)
    subst hrest
    exact floop_W_nil s e n st l h2 he
  | succ nn ih =>
    intro rest s e n st l hr h2 he
    match rest with
    | [] => exact floop_W_nil s e n st l h2 he
    | m :: rest2 =>
      simp only [List.length_cons] at hr
      by_cases hap : n = s + st * l
      · rw [floop.eq_def]
        simp only [if_pos hap]
        exact ih rest2 s n m st (l + 1) (by omega) (by omega)
          (by push_cast; rw [hap]; ring)
      · by_cases hb : (3 ≤ l || st = 0) = true
        · rw [floop_break s e n st l (m :: rest2) hap hb]
          have hb' : 3 ≤ l ∨ st = 0 := by simpa using hb
          have h3 : st ≠ 0 → 3 ≤ l := by
            intro h0
            rcases hb' with h | h
            · exact h
            · exact absurd h h0
          refine Wchain.cons _ _ (wf_mkBuild s st l h2 h3) ?_ ?_
          · refine Jcond_mkBuild s st n l _
              (contBreak_jHead l n (m :: rest2) (by omega)) hap ?_ ?_ h3
            · intro v hv
              exact contBreak_eq_rep2 l n v (m :: rest2) hv
            · intro x y hxy
              exact contBreak_pair l n x y (m :: rest2) hxy
          · refine contBreak_W_of l n (m :: rest2) h2 ?_
            intro e2 m2 rest3 hreq
            injection hreq with hx hy
            subst hx
            have hlen : rest3.length ≤ nn := by
              rw [hy] at hr
              simp at hr
              omega
            exact ih rest3 n m m2 (m - n) 2 hlen (le_refl 2) (by push_cast; ring)
        · rw [Bool.not_eq_true] at hb
          rw [floop.eq_def]
          simp only [if_neg hap, hb, Bool.false_eq_true, if_false]
          simp only [Bool.or_eq_false_iff, decide_eq_false_iff_not] at hb
          obtain ⟨hl3, hst⟩ := hb
          have hl2 : l = 2 := by omega
          subst hl2
          have he2 : e = s + st := by rw [he]; norm_num
          obtain ⟨t, ht⟩ := floop_streamTwo rest2.length rest2 e n m (n - e) 2
            (le_refl _) (le_refl 2) (by push_cast; ring)
          refine Wchain.cons _ _ trivial ?_ ?_
          · refine ⟨?_, ?_⟩
            · intro v1 hv1
              simp only [jHead] at hv1
              rw [ht] at hv1
              simp at hv1
              subst hv1
              rw [he2]
              intro hcon
              apply hst
              omega
            · intro v1 v2 hv1 hv2
              simp only [jHead] at hv1
              simp only [jSecond] at hv2
              rw [ht] at hv1 hv2
              simp at hv1 hv2
              subst hv1
              subst hv2
              intro hcon
              apply hap
              rw [he2] at hcon
              push_cast
              omega
          · exact ih rest2 e n m (n - e) 2 (by omega) (le_refl 2) (by push_cast; ring)

theorem fmtFrags_W (xs : List Int) : Wchain (fmtFrags xs) := by
  match xs with
  | [] => exact Wchain.nil
  | [a] => exact Wchain.cons _ _ trivial (Jcond_nil _) Wchain.nil
  | [a, b] =>
    rw [show fmtFrags [a, b] = if a = b then [Frag.rep a 2]
        else [.single a, .single b] from rfl]
    by_cases hab : a = b
    · rw [if_pos hab]
      exact Wchain.cons _ _ (le_refl 2) (Jcond_nil _) Wchain.nil
    · rw [if_neg hab]
      refine Wchain.cons _ _ trivial ?_
        (Wchain.cons _ _ trivial (Jcond_nil _) Wchain.nil)
      refine ⟨?_, ?_⟩
      · intro v1 hv1
        simp [jHead, fragStream, fragVals] at hv1
        subst hv1
        exact fun h => hab h.symm
      · intro v1 v2 hv1 hv2
        simp [jSecond, fragStream, fragVals] at hv2
  | a :: b :: c :: rest =>
    rw [show fmtFrags (a :: b :: c :: rest) = floop a b c (b - a) 2 rest from rfl]
    exact floop_W rest.length rest a b c (b - a) 2 (le_refl _) (le_refl 2)
      (by push_cast; ring)

theorem fmtFrags_ne_nil (xs : List Int) (h : xs ≠ []) : fmtFrags xs ≠ [] := by
  match xs with
  | [a] => simp [fmtFrags]
  | [a, b] =>
    rw [show fmtFrags [a, b] = if a = b then [Frag.rep a 2]
        else [.single a, .single b] from rfl]
    by_cases hab : a = b
    · simp [hab]
    · simp [hab]
  | a :: b :: c :: rest =>
    rw [show fmtFrags (a :: b :: c :: rest) = floop a b c (b - a) 2 rest from rfl]
    exact floop_ne_nil a b c (b - a) 2 rest (le_refl 2)

theorem intChars_natCast (k : Nat) : intChars (k : Int) = natChars k := by
  unfold intChars
  rw [if_neg (by omega)]
  congr 1

theorem intChars_ne_nil (i : Int) : intChars i ≠ [] := by
  unfold intChars
  split
  · simp
  · exact natChars_ne_nil _

theorem renderFrag_noWs (f : Frag) : NoWs (renderFrag f) := by
  have hx : isWsCh 'x' = false := by decide
  have hdash : isWsCh '-' = false := by decide
  match f with
  | .single a => exact noWs_intChars a
  | .rep a k =>
    exact noWs_append (noWs_intChars a) (noWs_cons hx (noWs_natChars k))
  | .rng a st l =>
    rw [show renderFrag (.rng a st l)
        = (if st = 1 then intChars a ++ '-' :: intChars (a + st * ((l : Int) - 1))
           else intChars a ++ '-' :: intChars (a + st * ((l : Int) - 1))
             ++ 'x' :: intChars st) from rfl]
    by_cases h1 : st = 1
    · rw [if_pos h1]
      exact noWs_append (noWs_intChars a) (noWs_cons hdash (noWs_intChars _))
    · rw [if_neg h1]
      exact noWs_append
        (noWs_append (noWs_intChars a) (noWs_cons hdash (noWs_intChars _)))
        (noWs_cons hx (noWs_intChars _))

theorem renderFrag_ne_nil (f : Frag) : renderFrag f ≠ [] := by
  match f with
  | .single a => exact intChars_ne_nil a
  | .rep a k =>
    intro h
    exact intChars_ne_nil a (List.append_eq_nil.mp h).1
  | .rng a st l =>
    rw [show renderFrag (.rng a st l)
        = (if st = 1 then intChars a ++ '-' :: intChars (a + st * ((l : Int) - 1))
           else intChars a ++ '-' :: intChars (a + st * ((l : Int) - 1))
             ++ 'x' :: intChars st) from rfl]
    by_cases h1 : st = 1
    · rw [if_pos h1]
      intro h
      exact intChars_ne_nil a (List.append_eq_nil.mp h).1
    · rw [if_neg h1]
      intro h
      exact intChars_ne_nil a
        (List.append_eq_nil.mp (List.append_eq_nil.mp h).1).1

theorem sub1_cons_nonws {c : Char} (r : List Char) (hc : isWsCh c = false) :
    sub1 (c :: r) = c :: sub1 r := by
  simp [sub1, hc]

theorem sub1_noWs_append {l : List Char} (r : List Char) (h : NoWs l) :
    sub1 (l ++ r) = l ++ sub1 r := by
  induction l with
  | nil => rfl
  | cons c rest ih =>
    have hc : isWsCh c = false := h c (List.mem_cons_self _ _)
    have ih2 := ih (fun x hx => h x (List.mem_cons_of_mem _ hx))
    simp [sub1, hc, ih2]

theorem sub1_space_digit {d : Char} (r : List Char) (hd : isDigitCh d = true) :
    sub1 (' ' :: d :: r) = ' ' :: sub1 (d :: r) := by
  have h1 : isWsCh ' ' = true := by decide
  simp [sub1, hd, h1]

theorem sub1_space_nondigit {d : Char} (r : List Char) (hd : isDigitCh d = false) :
    sub1 (' ' :: d :: r) = sub1 (d :: r) := by
  have h1 : isWsCh ' ' = true := by decide
  simp [sub1, hd, h1]

theorem sub2Aux_noWs_comma {l : List Char} (r : List Char) (h : NoWs l) :
    ∀ p, sub2Aux p (l ++ ',' :: r) = l ++ ',' :: sub2Aux (some ',') r := by
  induction l with
  | nil =>
    intro p
    have hc : isWsCh ',' = false := by decide
    simp [sub2Aux, hc]
  | cons c rest ih =>
    intro p
    have hc : isWsCh c = false := h c (List.mem_cons_self _ _)
    have ih2 := ih (fun x hx => h x (List.mem_cons_of_mem _ hx)) (some c)
    simp [sub2Aux, hc, ih2]

theorem sub2Aux_comma_space (Y : List Char) :
    sub2Aux (some ',') (' ' :: Y) = sub2Aux (some ' ') Y := by
  have h1 : isWsCh ' ' = true := by decide
  have h2 : isDigitCh ',' = false := by decide
  simp [sub2Aux, h1, h2]

theorem intercalate_cc (s a b : List Char) (l : List (List Char)) :
    List.intercalate s (a :: b :: l) = a ++ s ++ List.intercalate s (b :: l) := by
  simp [List.intercalate, List.intersperse]

/-- The result of the first `re.sub` pass on comma-space-joined parts: the
space survives exactly before a part starting with a digit. -/
def join1 : List (List Char) → List Char
  | [] => []
  | [p] => p
  | p :: q :: rest =>
    p ++ ',' :: (if isDigitCh (q.headD ' ') = true then ' ' :: join1 (q :: rest)
                 else join1 (q :: rest))

theorem sub1_join (parts : List (List Char))
    (h : ∀ p ∈ parts, NoWs p ∧ p ≠ []) :
    sub1 (List.intercalate [',', ' '] parts) = join1 parts := by
  induction parts with
  | nil => rfl
  | cons p ps ih =>
    match ps with
    | [] =>
      rw [show List.intercalate [',', ' '] [p] = p from by simp [List.intercalate]]
      exact sub1_id (h p (List.mem_cons_self _ _)).1
    | q :: rest =>
      have hq := h q (List.mem_cons_of_mem _ (List.mem_cons_self _ _))
      obtain ⟨d, q', rfl⟩ : ∃ d q', q = d :: q' := by
        match q, hq.2 with
        | c :: cs, _ => exact ⟨c, cs, rfl⟩
      rw [intercalate_cc]
      rw [List.append_assoc]
      rw [sub1_noWs_append _ (h p (List.mem_cons_self _ _)).1]
      rw [show ([',', ' '] : List Char) ++ List.intercalate [',', ' '] ((d :: q') :: rest)
          = ',' :: ' ' :: List.intercalate [',', ' '] ((d :: q') :: rest) from rfl]
      rw [sub1_cons_nonws _ (by decide)]
      obtain ⟨T, hT⟩ : ∃ T, List.intercalate [',', ' '] ((d :: q') :: rest) = d :: T := by
        match rest with
        | [] => exact ⟨q', by simp [List.intercalate]⟩
        | r1 :: rest2 =>
          refine ⟨q' ++ [',', ' '] ++ List.intercalate [',', ' '] (r1 :: rest2), ?_⟩
          rw [intercalate_cc]
          simp
      have ih2 := ih (fun x hx => h x (List.mem_cons_of_mem _ hx))
      rw [show join1 (p :: (d :: q') :: rest)
          = p ++ ',' :: (if isDigitCh ((d :: q').headD ' ') = true
              then ' ' :: join1 ((d :: q') :: rest)
              else join1 ((d :: q') :: rest)) from rfl]
      simp only [List.headD_cons]
      by_cases hd : isDigitCh d = true
      · rw [hT, sub1_space_digit _ hd, ← hT, ih2, if_pos hd]
      · rw [hT, sub1_space_nondigit _ (by simpa using hd), ← hT, ih2, if_neg hd]

theorem sub2_join (parts : List (List Char))
    (h : ∀ p ∈ parts, NoWs p ∧ p ≠ []) :
    ∀ p0, sub2Aux p0 (join1 parts) = List.intercalate [','] parts := by
  induction parts with
  | nil => intro p0; rfl
  | cons p ps ih =>
    match ps with
    | [] =>
      intro p0
      rw [show join1 [p] = p from rfl]
      rw [show List.intercalate [','] [p] = p from by simp [List.intercalate]]
      exact sub2Aux_id p0 (h p (List.mem_cons_self _ _)).1
    | q :: rest =>
      intro p0
      have ih2 := ih (fun x hx => h x (List.mem_cons_of_mem _ hx))
      rw [show join1 (p :: q :: rest)
          = p ++ ',' :: (if isDigitCh (q.headD ' ') = true
              then ' ' :: join1 (q :: rest)
              else join1 (q :: rest)) from rfl]
      rw [intercalate_cc]
      rw [show (p ++ [','] : List Char) ++ List.intercalate [','] (q :: rest)
          = p ++ ',' :: List.intercalate [','] (q :: rest) from by simp]
      by_cases hd : isDigitCh (q.headD ' ') = true
      · rw [if_pos hd]
        rw [sub2Aux_noWs_comma _ (h p (List.mem_cons_self _ _)).1 p0]
        rw [sub2Aux_comma_space, ih2 (some ' ')]
      · rw [if_neg hd]
        rw [sub2Aux_noWs_comma _ (h p (List.mem_cons_self _ _)).1 p0]
        rw [ih2 (some ',')]

theorem strip_join (parts : List (List Char))
    (h : ∀ p ∈ parts, NoWs p ∧ p ≠ []) :
    stripWs (List.intercalate [',', ' '] parts) = List.intercalate [','] parts := by
  unfold stripWs
  rw [sub1_join parts h, sub2_join parts h none]

/-- The token a rendered fragment scans as. -/
def tokOf : Frag → NumTok
  | .single a => (a, none, none)
  | .rep a k => (a, none, some (k : Int))
  | .rng a st l => (a, some (a + st * ((l : Int) - 1)),
      if st = 1 then none else some st)

theorem tokenAt_comma (X : List Char) : tokenAt (',' :: X) = none := by
  have h1 : ¬ (',' = '-') := by decide
  have h2 : isDigitCh ',' = false := by decide
  simp [tokenAt, parseSigned, parseDigits, h1, h2, List.takeWhile_cons]

theorem tokenAt_render (f : Frag) {t : List Char} (h : FragBoundary t) :
    tokenAt (renderFrag f ++ t) = some (tokOf f, t) := by
  match f with
  | .single a => exact tokenAt_single a h
  | .rep a k =>
    rw [show renderFrag (.rep a k) = intChars a ++ 'x' :: natChars k from rfl]
    rw [← intChars_natCast k]
    exact tokenAt_repeatTok a (k : Int) h
  | .rng a st l =>
    rw [show renderFrag (.rng a st l)
        = (if st = 1 then intChars a ++ '-' :: intChars (a + st * ((l : Int) - 1))
           else intChars a ++ '-' :: intChars (a + st * ((l : Int) - 1))
             ++ 'x' :: intChars st) from rfl]
    rw [show tokOf (.rng a st l) = (a, some (a + st * ((l : Int) - 1)),
        if st = 1 then none else some st) from rfl]
    by_cases h1 : st = 1
    · rw [if_pos h1, if_pos h1]
      exact tokenAt_rangeTok a (a + st * ((l : Int) - 1)) h
    · rw [if_neg h1, if_neg h1]
      exact tokenAt_rangeStepTok a (a + st * ((l : Int) - 1)) st h

theorem tokenize_join (F : List Frag) :
    tokenize (List.intercalate [','] (F.map renderFrag)) = F.map tokOf := by
  induction F with
  | nil => rfl
  | cons f G ih =>
    match G with
    | [] =>
      rw [show List.map renderFrag [f] = [renderFrag f] from rfl]
      rw [show List.intercalate [','] [renderFrag f] = renderFrag f from by
        simp [List.intercalate]]
      rw [show renderFrag f = renderFrag f ++ [] from by simp]
      rw [tokenize_cons_match (tokenAt_render f (Or.inl rfl))]
      rfl
    | g :: G2 =>
      simp only [List.map_cons] at ih ⊢
      rw [intercalate_cc, List.append_assoc]
      rw [show ([','] : List Char)
            ++ List.intercalate [','] (renderFrag g :: List.map renderFrag G2)
          = ',' :: List.intercalate [','] (renderFrag g :: List.map renderFrag G2)
          from rfl]
      rw [tokenize_cons_match (tokenAt_render f (Or.inr ⟨_, rfl⟩))]
      rw [tokenize_cons_skip (tokenAt_comma _)]
      rw [ih]

theorem evalTok_tokOf (f : Frag) (hf : wfFrag f) :
    evalTok (tokOf f) = .ok (fragVals f) := by
  match f with
  | .single a => rfl
  | .rep a k =>
    rw [show tokOf (.rep a k) = (a, none, some (k : Int)) from rfl]
    rw [show evalTok (a, none, some (k : Int))
        = .ok (List.replicate ((k : Int)).toNat a) from rfl]
    rw [Int.toNat_natCast]
    rfl
  | .rng a st l =>
    obtain ⟨hst, hl3⟩ := hf
    by_cases h1 : st = 1
    · subst h1
      rw [show tokOf (.rng a 1 l) = (a, some (a + 1 * ((l : Int) - 1)), none)
          from by simp [tokOf]]
      have hk : a + 1 * ((l : Int) - 1) = a + ((l - 1 : Nat) : Int) := by
        push_cast [Nat.cast_sub (by omega : 1 ≤ l)]
        ring
      rw [hk, evalTok_range_one a (l - 1)]
      rw [show l - 1 + 1 = l from by omega]
      rw [show fragVals (.rng a 1 l)
          = (List.range l).map (fun (i : Nat) => a + 1 * (i : Int)) from rfl]
      congr 1
      apply List.map_congr_left
      intro i _
      ring
    · rw [show tokOf (.rng a st l) = (a, some (a + st * ((l : Int) - 1)), some st)
          from by simp [tokOf, h1]]
      have hk : a + st * ((l : Int) - 1) = a + st * ((l - 1 : Nat) : Int) := by
        push_cast [Nat.cast_sub (by omega : 1 ≤ l)]
        ring
      rw [hk, evalTok_range_tok a st (l - 1) hst]
      rw [show l - 1 + 1 = l from by omega]
      rfl

theorem tokOf_not_zeroStep (f : Frag) (hf : wfFrag f) : ¬ zeroStepTok (tokOf f) := by
  match f with
  | .single a =>
    intro h
    simp [tokOf, zeroStepTok] at h
  | .rep a k =>
    intro h
    simp [tokOf, zeroStepTok] at h
  | .rng a st l =>
    obtain ⟨hst, _⟩ := hf
    intro h
    by_cases h1 : st = 1
    · simp [tokOf, h1, zeroStepTok] at h
    · simp [tokOf, h1, zeroStepTok] at h
      exact hst h

theorem evalToks_map (F : List Frag) (hF : ∀ f ∈ F, wfFrag f) :
    evalToks (F.map tokOf) = (fragStream F, false) := by
  induction F with
  | nil => rfl
  | cons f G ih =>
    rw [List.map_cons]
    rw [evalToks_cons_ok _ (tokOf_not_zeroStep f (hF f (List.mem_cons_self _ _)))]
    rw [ih (fun x hx => hF x (List.mem_cons_of_mem _ hx))]
    rw [show okVals (tokOf f) = fragVals f from by
      unfold okVals
      rw [evalTok_tokOf f (hF f (List.mem_cons_self _ _))]]
    rw [fragStream_cons]

theorem parse_of_render (F : List Frag) (hF : ∀ f ∈ F, wfFrag f) :
    parseNumbersRes (String.mk (joinComma (F.map renderFrag)))
      = (fragStream F, false) := by
  unfold parseNumbersRes
  rw [show (String.mk (joinComma (F.map renderFrag))).data
      = joinComma (F.map renderFrag) from rfl]
  unfold joinComma
  have hparts : ∀ p ∈ List.map renderFrag F, NoWs p ∧ p ≠ [] := by
    intro p hp
    obtain ⟨f, hf, rfl⟩ := List.mem_map.mp hp
    exact ⟨renderFrag_noWs f, renderFrag_ne_nil f⟩
  rw [strip_join _ hparts, tokenize_join, evalToks_map F hF]

/-- C1: for every string `s` produced by `format_numbers` on a non-empty
integer sequence, `parse_numbers(s)` raises no error and
`format_numbers(parse_numbers(s))` yields exactly `s` again (round-trip
identity on canonical outputs).  Note the intermediate integer sequence may
differ from the original one (the stale `seq_length` flush can lengthen a
trailing repeat), but the re-formatted string is identical. -/
theorem formatNumbers_roundTrip (xs : List Int) (h : xs ≠ []) :
    ∃ s, formatNumbers xs = .ok s ∧ (parseNumbersRes s).2 = false ∧
      formatNumbers (parseNumbers s) = .ok s := by
  have hW : Wchain (fmtFrags xs) := fmtFrags_W xs
  have hwf : ∀ f ∈ fmtFrags xs, wfFrag f := Wchain_wf hW
  refine ⟨String.mk (joinComma ((fmtFrags xs).map renderFrag)),
    formatNumbers_frags xs h, ?_, ?_⟩
  · rw [parse_of_render (fmtFrags xs) hwf]
  · have hp : parseNumbers (String.mk (joinComma ((fmtFrags xs).map renderFrag)))
        = fragStream (fmtFrags xs) := by
      unfold parseNumbers
      rw [parse_of_render (fmtFrags xs) hwf]
    rw [hp]
    have hne : fragStream (fmtFrags xs) ≠ [] := by
      intro h0
      exact fmtFrags_ne_nil xs h (fragStream_eq_nil hwf h0)
    rw [formatNumbers_frags (fragStream (fmtFrags xs)) hne]
    rw [refmt hW]

theorem formatNumbers_roundTrip_witness :
    ([1, 2, 3, 7, 9, 9] : List Int) ≠ [] ∧
    ∃ s, formatNumbers [1, 2, 3, 7, 9, 9] = .ok s ∧ (parseNumbersRes s).2 = false ∧
      formatNumbers (parseNumbers s) = .ok s :=
  ⟨by decide, formatNumbers_roundTrip [1, 2, 3, 7, 9, 9] (by decide)⟩
